import Mathlib

/-!
Verification of the notion-exporter repository: a shallow embedding of its
utility functions, Markdown conversion engine, Notion access layer and export
orchestrator, together with theorems settling the specification claims.

Strings are modelled through their underlying character lists; JavaScript
regular-expression replacements are embedded as explicit recursive functions
on character lists.
-/

namespace NotionExporter

/-- The JavaScript whitespace class used by the regular expressions in the
source (the set matched by the regex class backslash-s and trimmed by
String.prototype.trim). -/
def jsWhitespace (c : Char) : Bool :=
  c = ' ' || c = '\t' || c = '\n' || c = '\x0b' || c = '\x0c' || c = '\r' ||
  c = '\u00A0' || c = '\u1680' || ('\u2000' ≤ c && c ≤ '\u200A') ||
  c = '\u2028' || c = '\u2029' || c = '\u202F' || c = '\u205F' ||
  c = '\u3000' || c = '\uFEFF'

/-- Characters removed by getSafeFilename's first replacement, the regex
class of characters prohibited in file systems: slash, backslash, colon,
star, question mark, double quote, angle brackets, pipe. -/
def illegalFilenameChar (c : Char) : Bool :=
  c = '/' || c = '\\' || c = ':' || c = '*' || c = '?' || c = '"' ||
  c = '<' || c = '>' || c = '|'

/-- Auxiliary for replaceRuns: the boolean argument records whether the
previous character belonged to the current run (in which case further run
characters are dropped rather than emitting another replacement). -/
def replaceRunsAux (p : Char → Bool) (r : Char) : List Char → Bool → List Char
  | [], _ => []
  | c :: cs, inRun =>
    if p c then
      if inRun then replaceRunsAux p r cs true
      else r :: replaceRunsAux p r cs true
    else c :: replaceRunsAux p r cs false

/-- Global regex replacement of every maximal nonempty run of characters
satisfying p by the single character r, as performed by
JavaScript's replace with a one-character-class-plus regex and the g flag. -/
def replaceRuns (p : Char → Bool) (r : Char) (l : List Char) : List Char :=
  replaceRunsAux p r l false

/-- Drop leading characters satisfying p. -/
def trimCharsLeft (p : Char → Bool) (l : List Char) : List Char :=
  l.dropWhile p

/-- Drop trailing characters satisfying p. -/
def trimCharsRight (p : Char → Bool) (l : List Char) : List Char :=
  (l.reverse.dropWhile p).reverse

/-- Drop leading and trailing characters satisfying p; embeds the anchored
regex replacement of leading or trailing character-class runs by the empty
string. -/
def trimChars (p : Char → Bool) (l : List Char) : List Char :=
  trimCharsRight p (trimCharsLeft p l)

/-- The character class of the trimming step of getSafeFilename: a dot or a
whitespace character. -/
def dotOrSpace (c : Char) : Bool :=
  c = '.' || jsWhitespace c

/-- JavaScript String.prototype.trim on a character list. -/
def jsTrim (l : List Char) : List Char :=
  trimChars jsWhitespace l

/-- The replacement pipeline of getSafeFilename (src/utils.ts line 33-41):
remove prohibited characters, replace whitespace runs by single underscores,
trim leading and trailing dots and whitespace, and collapse consecutive
underscores into one. -/
def safeFilenamePipeline (l : List Char) : List Char :=
  replaceRuns (fun c => c = '_') '_'
    (trimChars dotOrSpace
      (replaceRuns jsWhitespace '_'
        (l.filter (fun c => !illegalFilenameChar c))))

/-- Embedding of getSafeFilename (src/utils.ts line 26-55): empty,
whitespace-only or "Untitled" input yields "Untitled"; otherwise the
replacement pipeline runs, an empty result yields "Untitled", and the result
is truncated to 100 characters. -/
def getSafeFilename (title : String) : String :=
  if title.data = [] || jsTrim title.data = [] || title = "Untitled" then
    "Untitled"
  else
    let safeTitle := safeFilenamePipeline title.data
    if safeTitle = [] || jsTrim safeTitle = [] then "Untitled"
    else if 100 < safeTitle.length then String.mk (safeTitle.take 100)
    else String.mk safeTitle

/-- ASCII alphanumeric characters, the regex class a-z A-Z 0-9. -/
def isAsciiAlphanum (c : Char) : Bool :=
  c.isAlphanum

/-- Leftmost match of the extension regex of getImageExtension: a dot, a
nonempty ASCII-alphanumeric run, followed by a question mark or the end of
the string; returns the captured run. -/
def extScan : List Char → Option (List Char)
  | [] => none
  | c :: cs =>
    if c = '.' then
      let run := cs.takeWhile isAsciiAlphanum
      let rest := cs.dropWhile isAsciiAlphanum
      if run ≠ [] && (rest = [] || rest.head? = some '?') then some run
      else extScan cs
    else extScan cs

/-- The recognized image extensions of getImageExtension. -/
def validImageExts : List String :=
  ["jpg", "jpeg", "png", "gif", "webp", "svg"]

/-- Embedding of getImageExtension (src/utils.ts line 105-118): extract an
extension from the URL by the leftmost match of the extension regex,
lowercase it, and keep it only if it is a recognized image extension;
otherwise default to ".jpg". -/
def getImageExtension (url : String) : String :=
  match extScan url.data with
  | some run =>
    let ext := String.mk (run.map Char.toLower)
    if validImageExts.contains ext then "." ++ ext else ".jpg"
  | none => ".jpg"

/-- The query-stripping step of convertImage: everything before the first
question mark (JavaScript url.split at the question mark, first element). -/
def stripQuery (url : String) : String :=
  String.mk (url.data.takeWhile (fun c => c ≠ '?'))

/-- The local filename computed by convertImage (src/markdown.ts line
398-402) for a downloaded image, parameterized by the MD5-hex digest
function of the crypto library: the hash is taken over the query-stripped
URL while the extension is derived from the full URL. -/
def imageFilename (md5hex : String → String) (url : String) : String :=
  "image_" ++ md5hex (stripQuery url) ++ getImageExtension url

/-! Path handling: an embedding of the posix behaviour of the node path
module (normalize and join), on which safePathJoin is built.  Paths are
handled as lists of segments (character lists split at the slash). -/

/-- Split a character list at every slash; the split of the empty list is a
single empty segment, as for JavaScript string split. -/
def splitSegsL : List Char → List (List Char)
  | [] => [[]]
  | c :: cs =>
    let rest := splitSegsL cs
    if c = '/' then [] :: rest
    else
      match rest with
      | [] => [[c]]
      | s :: ss => (c :: s) :: ss

/-- One step of path normalization: empty and dot segments are dropped, a
dot-dot segment pops the previous segment when one is available (and is
itself kept at the head of a relative path, dropped at the root of an
absolute path), and any other segment is appended. -/
def normStep (isAbs : Bool) (stack : List (List Char)) (seg : List Char) :
    List (List Char) :=
  if seg = [] || seg = ['.'] then stack
  else if seg = ['.', '.'] then
    match stack with
    | [] => if isAbs then [] else [['.', '.']]
    | _ =>
      if stack.getLast? = some ['.', '.'] then stack ++ [['.', '.']]
      else stack.dropLast
  else stack ++ [seg]

/-- Normalize a segment sequence by folding normStep from the left. -/
def normSegs (isAbs : Bool) (segs : List (List Char)) : List (List Char) :=
  segs.foldl (normStep isAbs) []

/-- Render a normalized segment stack back to a path: the empty stack is the
current directory (or the root for an absolute path), otherwise the segments
joined by slashes, with a leading slash for an absolute path. -/
def renderPath (isAbs : Bool) (stack : List (List Char)) : List Char :=
  match stack with
  | [] => if isAbs then ['/'] else ['.']
  | _ => (if isAbs then ['/'] else []) ++ List.intercalate ['/'] stack

/-- Whether a path is absolute: it begins with a slash. -/
def isAbsL (l : List Char) : Bool :=
  l.head? = some '/'

/-- Embedding of posix path normalization of the node path module. -/
def pathNormalizeL (l : List Char) : List Char :=
  renderPath (isAbsL l) (normSegs (isAbsL l) (splitSegsL l))

/-- Embedding of the regex of safePathJoin stripping every leading
dot-dot-slash, dot-dot-backslash, or final bare dot-dot from the path. -/
def stripLeadingDotDot : List Char → List Char
  | '.' :: '.' :: '/' :: rest => stripLeadingDotDot rest
  | '.' :: '.' :: '\\' :: rest => stripLeadingDotDot rest
  | ['.', '.'] => []
  | l => l

/-- Embedding of posix path join of the node path module on two parts:
empty parts are ignored, the parts are joined by a slash and the result
normalized; joining two empty parts gives the current directory. -/
def pathJoinL (a b : List Char) : List Char :=
  let joined := if a = [] then b else if b = [] then a else a ++ '/' :: b
  if joined = [] then ['.'] else pathNormalizeL joined

/-- Embedding of safePathJoin (src/utils.ts of the variant with path
safety, line 170-175): normalize the relative component, strip leading
dot-dot sequences from it, and join it onto the base directory. -/
def safePathJoin (baseDir relativePath : String) : String :=
  String.mk (pathJoinL baseDir.data (stripLeadingDotDot (pathNormalizeL relativePath.data)))

/-! The Markdown conversion engine (src/markdown.ts).  Blocks are modelled
by an inductive covering the block types the claims exercise; every other
type is carried as an unsupported tag, which the engine renders as an HTML
comment exactly as the source does. -/

/-- The rich-text annotation flags of the Notion API. -/
structure Annots where
  bold : Bool
  italic : Bool
  strikethrough : Bool
  underline : Bool
  code : Bool
deriving DecidableEq, Repr

/-- A rich-text span: plain text, optional hyperlink, annotation flags. -/
structure RichText where
  plain_text : String
  href : Option String
  annots : Annots
deriving DecidableEq, Repr

/-- Annotation-free rich text with the given plain text. -/
def plainSpan (s : String) : RichText :=
  ⟨s, none, ⟨false, false, false, false, false⟩⟩

/-- The type-specific payload of a block, for the block types the claims
exercise; any other type is the unsupported case carrying its type tag. -/
inductive BlockData where
  | paragraph (rich : List RichText)
  | heading1 (rich : List RichText)
  | heading2 (rich : List RichText)
  | heading3 (rich : List RichText)
  | bulletedListItem (rich : List RichText)
  | numberedListItem (rich : List RichText)
  | toDo (rich : List RichText) (checked : Bool)
  | divider
  | tableOfContents
  | childPage (title : String)
  | childDatabase
  | unsupported (tag : String)
deriving DecidableEq, Repr

/-- A block: id, has-children flag, payload, and the optional child list
attached by the access layer. -/
inductive Block where
  | mk (id : String) (hasChildren : Bool) (data : BlockData)
      (children : Option (List Block))

/-- The id of a block. -/
def Block.id : Block → String
  | .mk i _ _ _ => i

/-- The has-children flag of a block. -/
def Block.hasChildren : Block → Bool
  | .mk _ h _ _ => h

/-- The payload of a block. -/
def Block.data : Block → BlockData
  | .mk _ _ d _ => d

/-- The attached children of a block. -/
def Block.children : Block → Option (List Block)
  | .mk _ _ _ c => c

/-- Replace the attached children of a block. -/
def Block.setChildren : Block → Option (List Block) → Block
  | .mk i h d _, c => .mk i h d c

/-- The string type tag of a block, as carried by the type field of the
Notion API block object. -/
def Block.typeTag (b : Block) : String :=
  match b.data with
  | .paragraph _ => "paragraph"
  | .heading1 _ => "heading_1"
  | .heading2 _ => "heading_2"
  | .heading3 _ => "heading_3"
  | .bulletedListItem _ => "bulleted_list_item"
  | .numberedListItem _ => "numbered_list_item"
  | .toDo _ _ => "to_do"
  | .divider => "divider"
  | .tableOfContents => "table_of_contents"
  | .childPage _ => "child_page"
  | .childDatabase => "child_database"
  | .unsupported tag => tag

/-- Rendering of one rich-text span (src/markdown.ts line 499-540):
annotations applied in the order bold, italic, strikethrough, code,
underline, then the whole span wrapped in a link when a href is present. -/
def renderRichTextItem (t : RichText) : String :=
  let c0 := t.plain_text
  let c1 := if t.annots.bold then "**" ++ c0 ++ "**" else c0
  let c2 := if t.annots.italic then "*" ++ c1 ++ "*" else c1
  let c3 := if t.annots.strikethrough then "~~" ++ c2 ++ "~~" else c2
  let c4 := if t.annots.code then "`" ++ c3 ++ "`" else c3
  let c5 := if t.annots.underline then "<u>" ++ c4 ++ "</u>" else c4
  match t.href with
  | some h => "[" ++ c5 ++ "](" ++ h ++ ")"
  | none => c5

/-- Embedding of convertRichText: concatenation of the rendered spans in
order; the empty sequence renders as the empty string. -/
def convertRichText (rich : List RichText) : String :=
  String.join (rich.map renderRichTextItem)

/-- Embedding of convertParagraph: the rich text of a paragraph block, the
empty string on any other block. -/
def convertParagraph (b : Block) : String :=
  match b.data with
  | .paragraph rich => convertRichText rich
  | _ => ""

/-- Embedding of convertHeading1. -/
def convertHeading1 (b : Block) : String :=
  match b.data with
  | .heading1 rich => "# " ++ convertRichText rich
  | _ => ""

/-- Embedding of convertHeading2. -/
def convertHeading2 (b : Block) : String :=
  match b.data with
  | .heading2 rich => "## " ++ convertRichText rich
  | _ => ""

/-- Embedding of convertHeading3. -/
def convertHeading3 (b : Block) : String :=
  match b.data with
  | .heading3 rich => "### " ++ convertRichText rich
  | _ => ""

/-- Embedding of convertBulletedListItem. -/
def convertBulletedListItem (b : Block) : String :=
  match b.data with
  | .bulletedListItem rich => "- " ++ convertRichText rich
  | _ => ""

/-- Embedding of convertNumberedListItem (src/markdown.ts line 266-272):
the index followed by a dot and the rich text. -/
def convertNumberedListItem (b : Block) (index : Nat) : String :=
  match b.data with
  | .numberedListItem rich => toString index ++ ". " ++ convertRichText rich
  | _ => ""

/-- Embedding of convertToDo: a checkbox bullet. -/
def convertToDo (b : Block) : String :=
  match b.data with
  | .toDo rich checked =>
    "- " ++ (if checked then "[x]" else "[ ]") ++ " " ++ convertRichText rich
  | _ => ""

/-- The character class replaced by createAnchorLink's regex: whitespace,
parentheses, the hash sign, straight double and single quotes, and the
colon. -/
def anchorChar (c : Char) : Bool :=
  jsWhitespace c || c = '(' || c = ')' || c = '#' || c = '"' ||
  c = Char.ofNat 39 || c = ':'

/-- Embedding of createAnchorLink (src/markdown.ts line 597-599): replace
every maximal run of anchor-class characters by a single hyphen. -/
def createAnchorLink (text : String) : String :=
  String.mk (replaceRuns anchorChar '-' text.data)

/-- Whether a block is one of the three heading types scanned by the table
of contents. -/
def isHeadingBlock (b : Block) : Bool :=
  b.typeTag = "heading_1" || b.typeTag = "heading_2" || b.typeTag = "heading_3"

/-- The rendered text and level of a heading block, as read by
convertTableOfContents. -/
def headingTextLevel (b : Block) : String × Nat :=
  match b.data with
  | .heading1 rich => (convertRichText rich, 1)
  | .heading2 rich => (convertRichText rich, 2)
  | .heading3 rich => (convertRichText rich, 3)
  | _ => ("", 0)

/-- A string repeated n times. -/
def repeatStr (s : String) (n : Nat) : String :=
  String.join (List.replicate n s)

/-- One table-of-contents bullet: indentation of two spaces per level
beyond the first, the heading text, and an anchor link. -/
def tocLine (b : Block) : String :=
  let tl := headingTextLevel b
  repeatStr "  " (tl.2 - 1) ++ "- [" ++ tl.1 ++ "](#" ++ createAnchorLink tl.1 ++ ")"

/-- Embedding of convertTableOfContents (src/markdown.ts line 547-590):
scan the whole top-level block sequence for headings; no heading yields the
explicit comment, otherwise one bullet per heading joined by newlines. -/
def convertTableOfContents (allBlocks : List Block) : String :=
  let headings := allBlocks.filter isHeadingBlock
  if headings.length = 0 then "<!-- No headings found for table of contents -->"
  else String.intercalate "\n" (headings.map tocLine)

/-- The id of a block with its hyphens removed, as used for Notion web
links. -/
def idNoHyphens (b : Block) : String :=
  String.mk (b.id.data.filter (fun c => c ≠ '-'))

/-- Embedding of convertBlockToMarkdown's handler-table dispatch on the
block type tag (src/markdown.ts line 112-208), restricted to the modelled
block types; a child database without enrichment renders as a bare link and
an unrecognized type as an HTML comment. -/
def convertBlockToMarkdown (b : Block) (numberedListIndex : Nat)
    (allBlocks : List Block) : String :=
  if b.typeTag = "paragraph" then convertParagraph b
  else if b.typeTag = "heading_1" then convertHeading1 b
  else if b.typeTag = "heading_2" then convertHeading2 b
  else if b.typeTag = "heading_3" then convertHeading3 b
  else if b.typeTag = "bulleted_list_item" then convertBulletedListItem b
  else if b.typeTag = "numbered_list_item" then
    convertNumberedListItem b numberedListIndex
  else if b.typeTag = "to_do" then convertToDo b
  else if b.typeTag = "divider" then "---"
  else if b.typeTag = "table_of_contents" then convertTableOfContents allBlocks
  else if b.typeTag = "child_page" then
    match b.data with
    | .childPage title =>
      "[" ++ title ++ "](https://www.notion.so/" ++ idNoHyphens b ++ ")"
    | _ => ""
  else if b.typeTag = "child_database" then
    "[Database: " ++ b.id ++ "](https://www.notion.so/" ++ idNoHyphens b ++ ")"
  else "<!-- Unsupported block type: " ++ b.typeTag ++ " -->"

/-- Embedding of isListItem: bulleted, numbered and to-do blocks. -/
def isListItem (blockType : String) : Bool :=
  blockType = "bulleted_list_item" || blockType = "numbered_list_item" ||
  blockType = "to_do"

/-- The separator appended after a block (src/markdown.ts line 72-78): a
single newline between two consecutive list items, a blank line otherwise. -/
def blockSeparator (b : Block) (rest : List Block) : String :=
  match rest.head? with
  | some nextBlock =>
    if isListItem b.typeTag && isListItem nextBlock.typeTag then "\n" else "\n\n"
  | none => "\n\n"

/-- The top-level conversion loop of convertBlocksToMarkdown (src/markdown.ts
line 45-87), carrying the previous block's type tag and the numbered-list
counter: any non-numbered block resets the counter to zero, a numbered block
after a non-numbered block restarts it at one, and a numbered block after a
numbered block increments it; the counter value is passed to the block
conversion. -/
def convertLoop (allBlocks : List Block) :
    List Block → String → Nat → String
  | [], _, _ => ""
  | b :: rest, prevBlockType, numberedListCounter =>
    let counter :=
      if b.typeTag ≠ "numbered_list_item" then 0
      else if prevBlockType ≠ "numbered_list_item" then 1
      else numberedListCounter + 1
    convertBlockToMarkdown b counter allBlocks ++ blockSeparator b rest ++
      convertLoop allBlocks rest b.typeTag counter

/-- JavaScript String.prototype.trim. -/
def jsTrimStr (s : String) : String :=
  String.mk (jsTrim s.data)

/-- Embedding of convertBlocksToMarkdown (src/markdown.ts line 35-91): the
conversion loop started with an empty previous type and a zero counter, its
result trimmed. -/
def convertBlocksToMarkdown (blocks : List Block) : String :=
  jsTrimStr (convertLoop blocks blocks "" 0)

/-! The Notion access layer (src/notion.ts). -/

/-- The fixed batch size of five used by processNestedBlocks: split a list
into consecutive batches of five. -/
def chunk5 : List α → List (List α)
  | [] => []
  | a :: l => (a :: l.take 4) :: chunk5 (l.drop 4)
termination_by l => l.length
decreasing_by simp only [List.length_drop, List.length_cons]; omega

/-- The per-block body of processNestedBlocks: for a block with children,
fetch its child blocks and attach them; a fetch failure is caught and the
block is assigned an empty children array; a block without children is left
untouched. -/
def attachChildren (fetch : String → Except String (List Block)) (b : Block) :
    Block :=
  if b.hasChildren then
    match fetch b.id with
    | .ok childBlocks => b.setChildren (some childBlocks)
    | .error _ => b.setChildren (some [])
  else b

/-- Embedding of processNestedBlocks (src/notion.ts line 148-197): the
blocks are processed in batches of five, each batch's blocks fetched
together, with the recursive child fetch abstracted by the fetch argument. -/
def processNestedBlocks (fetch : String → Except String (List Block))
    (blocks : List Block) : List Block :=
  ((chunk5 blocks).map (fun batch => batch.map (attachChildren fetch))).flatten

/-- Subpage or child-database information: id and title. -/
structure SubpageInfo where
  id : String
  title : String
deriving DecidableEq, Repr

/-- Embedding of getChildDatabases (src/notion.ts line 233-251): scan the
block sequence in order for child-database blocks, emitting for each an
entry whose title is the placeholder string built from the block id. -/
def getChildDatabases : List Block → List SubpageInfo
  | [] => []
  | b :: rest =>
    if b.typeTag = "child_database" then
      { id := b.id, title := "Database " ++ b.id } :: getChildDatabases rest
    else getChildDatabases rest

/-! Metadata and the export orchestrator (src/export.ts).  The page object
is reduced to the fields the orchestrator reads; the filesystem is a map
from paths to file contents with a modification time. -/

/-- The page fields the orchestrator reads, with the properties mapping
reduced to the optional property of type title. -/
structure Page where
  id : String
  created_time : String
  last_edited_time : String
  url : String
  archived : Bool
  in_trash : Bool
  public_url : Option String
  titleProperty : Option (List RichText)

/-- Embedding of getPageTitle (src/notion.ts line 258-273): the joined
plain text of the title property, or "Untitled" when the property is absent
or its text empty. -/
def getPageTitle (page : Page) : String :=
  match page.titleProperty with
  | some rich =>
    let titleText := String.join (rich.map (fun t => t.plain_text))
    if titleText = "" then "Untitled" else titleText
  | none => "Untitled"

/-- The metadata record embedded into exported files. -/
structure ExportedMetadata where
  id : String
  created_time : String
  last_edited_time : String
  url : String
  archived : Bool
  in_trash : Bool
  public_url : Option String
deriving DecidableEq, Repr

/-- The projection of a page onto its exported metadata (src/export.ts line
192-200). -/
def currentMetadataOfPage (page : Page) : ExportedMetadata :=
  { id := page.id
    created_time := page.created_time
    last_edited_time := page.last_edited_time
    url := page.url
    archived := page.archived
    in_trash := page.in_trash
    public_url := page.public_url }

/-- A lowercase hexadecimal digit. -/
def hexDigitChar (n : Nat) : Char :=
  if n < 10 then Char.ofNat (48 + n) else Char.ofNat (87 + n)

/-- The escaping of one character inside a JSON string literal as performed
by JSON.stringify. -/
def jsonEscapeChar (c : Char) : String :=
  if c = '"' then "\\\""
  else if c = '\\' then "\\\\"
  else if c = '\n' then "\\n"
  else if c = '\r' then "\\r"
  else if c = '\t' then "\\t"
  else if c = '\x08' then "\\b"
  else if c = '\x0c' then "\\f"
  else if c.toNat < 32 then
    "\\u00" ++ String.mk [hexDigitChar (c.toNat / 16), hexDigitChar (c.toNat % 16)]
  else String.singleton c

/-- A JSON string literal. -/
def jsonStr (s : String) : String :=
  "\"" ++ String.join (s.data.map jsonEscapeChar) ++ "\""

/-- A JSON string literal or null for an absent value (JSON.stringify of a
nullable string). -/
def jsonOptStr : Option String → String
  | none => "null"
  | some s => jsonStr s

/-- A JSON boolean literal. -/
def jsonBool (b : Bool) : String :=
  if b then "true" else "false"

/-- JSON.stringify of the exported metadata record with an indent of two
spaces, the keys in the insertion order of src/export.ts line 192-200. -/
def stringifyMetadata (m : ExportedMetadata) : String :=
  "\x7b\n  \"id\": " ++ jsonStr m.id ++
  ",\n  \"created_time\": " ++ jsonStr m.created_time ++
  ",\n  \"last_edited_time\": " ++ jsonStr m.last_edited_time ++
  ",\n  \"url\": " ++ jsonStr m.url ++
  ",\n  \"archived\": " ++ jsonBool m.archived ++
  ",\n  \"in_trash\": " ++ jsonBool m.in_trash ++
  ",\n  \"public_url\": " ++ jsonOptStr m.public_url ++
  "\n\x7d"

/-- The sentinel line opening the metadata comment of every exported file. -/
def sentinel : String :=
  "<!-- ** GENERATED_BY_NOTION_EXPORTER **"

/-- The metadata comment written at the top of every exported file
(src/export.ts line 238-240): the sentinel line, the pretty-printed JSON
record, and the closing marker. -/
def metadataComment (m : ExportedMetadata) : String :=
  sentinel ++ "\n" ++ stringifyMetadata m ++ "\n-->"

/-- Split a character list at every newline. -/
def splitLinesL : List Char → List (List Char)
  | [] => [[]]
  | c :: cs =>
    let rest := splitLinesL cs
    if c = '\n' then [] :: rest
    else
      match rest with
      | [] => [[c]]
      | s :: ss => (c :: s) :: ss

/-- The remainder of a list after a required literal prefix. -/
def expectPrefixL (pre l : List Char) : Option (List Char) :=
  if pre.isPrefixOf l then some (l.drop pre.length) else none

/-- The numeric value of a lowercase hexadecimal digit. -/
def hexVal (c : Char) : Option Nat :=
  if '0' ≤ c && c ≤ '9' then some (c.toNat - 48)
  else if 'a' ≤ c && c ≤ 'f' then some (c.toNat - 87)
  else none

/-- Parse the body of a JSON string literal given without its opening
quote, undoing the escapes of JSON.stringify; fails unless the closing
quote is the final character. -/
def parseJsonBody : List Char → Option (List Char)
  | [] => none
  | '"' :: rest => if rest = [] then some [] else none
  | '\\' :: e :: rest =>
    if e = 'u' then
      match rest with
      | h1 :: h2 :: h3 :: h4 :: rest2 => do
        let v1 ← hexVal h1
        let v2 ← hexVal h2
        let v3 ← hexVal h3
        let v4 ← hexVal h4
        let tail ← parseJsonBody rest2
        some (Char.ofNat (((v1 * 16 + v2) * 16 + v3) * 16 + v4) :: tail)
      | _ => none
    else do
      let c ←
        if e = '"' then some '"'
        else if e = '\\' then some '\\'
        else if e = '/' then some '/'
        else if e = 'n' then some '\n'
        else if e = 'r' then some '\r'
        else if e = 't' then some '\t'
        else if e = 'b' then some '\x08'
        else if e = 'f' then some '\x0c'
        else none
      let tail ← parseJsonBody rest
      some (c :: tail)
  | c :: rest => do
    let tail ← parseJsonBody rest
    some (c :: tail)

/-- Parse a whole JSON string literal. -/
def parseJsonString (l : List Char) : Option String :=
  match l with
  | '"' :: rest => (parseJsonBody rest).map String.mk
  | _ => none

/-- Parse a JSON string literal or the null literal. -/
def parseJsonOptString (l : List Char) : Option (Option String) :=
  if l = "null".data then some none
  else (parseJsonString l).map some

/-- Parse a JSON boolean literal. -/
def parseJsonBool (l : List Char) : Option Bool :=
  if l = "true".data then some true
  else if l = "false".data then some false
  else none

/-- Extract the value part of one pretty-printed metadata line: two spaces,
the quoted key, a colon and a space, then the value, with a trailing comma
on all but the last line. -/
def fieldValue (key : String) (comma : Bool) (line : List Char) :
    Option (List Char) :=
  match expectPrefixL ("  \"" ++ key ++ "\": ").data line with
  | none => none
  | some v =>
    if comma then
      match v.getLast? with
      | some ch => if ch = ',' then some v.dropLast else none
      | none => none
    else some v

/-- Modelled from the spec: the JSON block of readPriorMetadata, parsed
from the pretty-printed fixed-key record between the sentinel and the
closing marker (the utils module defining extractMetadataFromMarkdown is
absent from the sources; only its caller src/export.ts remains).  The nine
lines are the opening brace, the seven fields in their fixed order, and the
closing brace. -/
def parseMetadataFromLines (ls : List (List Char)) : Option ExportedMetadata :=
  match ls with
  | [l0, l1, l2, l3, l4, l5, l6, l7, l8] =>
    if l0 = ['\x7b'] && l8 = ['\x7d'] then do
      let idv ← fieldValue "id" true l1 >>= parseJsonString
      let ct ← fieldValue "created_time" true l2 >>= parseJsonString
      let let_ ← fieldValue "last_edited_time" true l3 >>= parseJsonString
      let urlv ← fieldValue "url" true l4 >>= parseJsonString
      let arch ← fieldValue "archived" true l5 >>= parseJsonBool
      let trash ← fieldValue "in_trash" true l6 >>= parseJsonBool
      let pub ← fieldValue "public_url" false l7 >>= parseJsonOptString
      some ⟨idv, ct, let_, urlv, arch, trash, pub⟩
    else none
  | _ => none

/-- The lines strictly between the first line and the closing marker line;
absent when no closing marker line exists. -/
def takeUntilCloseMarker : List (List Char) → Option (List (List Char))
  | [] => none
  | l :: rest =>
    if l = "-->".data then some []
    else do
      let m ← takeUntilCloseMarker rest
      some (l :: m)

/-- Modelled from the spec: readPriorMetadata's parse of a file's content —
if the first line is the fixed sentinel comment line, parse the embedded
JSON block between the sentinel and the closing marker; otherwise absent. -/
def parseMetadataContent (content : String) : Option ExportedMetadata :=
  match splitLinesL content.data with
  | [] => none
  | first :: rest =>
    if first = sentinel.data then
      match takeUntilCloseMarker rest with
      | some jsonLines => parseMetadataFromLines jsonLines
      | none => none
    else none

/-- A file as the filesystem model records it: its content and its
modification time. -/
structure FileData where
  content : String
  mtime : Nat
deriving DecidableEq, Repr

/-- The filesystem model: a map from paths to files. -/
def FS : Type :=
  String → Option FileData

/-- Modelled from the spec: extractMetadataFromMarkdown — read the target
file if it exists and parse its metadata block; a missing file or malformed
block reports absence, never an error. -/
def extractMetadataFromMarkdown (fs : FS) (path : String) :
    Option ExportedMetadata :=
  match fs path with
  | none => none
  | some file => parseMetadataContent file.content

/-- Modelled from the spec: hasPageBeenUpdated alias needsUpdate — true if
the prior metadata is absent, otherwise true exactly when the current
last-edited time differs from the prior one (the utils module defining it
is absent from the sources; only its caller src/export.ts remains). -/
def hasPageBeenUpdated (current : ExportedMetadata)
    (existing : Option ExportedMetadata) : Bool :=
  match existing with
  | none => true
  | some prior => current.last_edited_time != prior.last_edited_time

/-- A filesystem write: the file at the path is replaced, its modification
time set to the current instant. -/
def writeFileSync (fs : FS) (path content : String) (now : Nat) : FS :=
  fun p => if p = path then some ⟨content, now⟩ else fs p

/-- The export result record. -/
structure ExportResult where
  success : Bool
  pageId : String
  pageTitle : String
  path : String
deriving DecidableEq, Repr

/-- The outcome of a page export: a result together with the filesystem
left behind and whether blocks were fetched from the provider, or a thrown
error. -/
inductive ExportOutcome where
  | ok (result : ExportResult) (fs : FS) (fetchedBlocks : Bool)
  | thrown (message : String)

/-- The provider environment of an export: the credential and the page and
block retrieval services. -/
structure ProviderEnv where
  token : Option String
  retrievePage : String → Except String Page
  retrieveBlocks : String → Except String (List Block)

/-- The filename resolution of exportNotionPage: the sanitized custom
filename when one is supplied, the sanitized page title otherwise. -/
def resolvedFilename (customFilename : Option String) (pageTitle : String) :
    String :=
  match customFilename with
  | some cf => getSafeFilename cf
  | none => getSafeFilename pageTitle

/-- Embedding of exportNotionPage (src/export.ts line 146-285): check the
token, fetch the page, resolve the filename from the custom name or the
page title, compare the embedded metadata of the destination file against
the fresh metadata, and either return at once referencing the existing file
or fetch the blocks, convert them, write the file, and (when recursive) run
the subpage processing, abstracted here by the recurseEffect argument.
Child-database enrichment only rewrites the database payload of
child-database blocks, which the modelled block constructors do not carry,
so it is the identity here. -/
def exportNotionPage (env : ProviderEnv) (fs : FS) (now : Nat)
    (recurseEffect : FS → FS) (pageId destinationDir : String)
    (recursive : Bool) (customFilename : Option String) : ExportOutcome :=
  match env.token with
  | none =>
    .thrown "NOTION_TOKEN environment variable is not set. Please set it in .env file."
  | some _ =>
    match env.retrievePage pageId with
    | .error e => .thrown e
    | .ok page =>
      let pageTitle := getPageTitle page
      let filename := resolvedFilename customFilename pageTitle
      let markdownFilePath := safePathJoin destinationDir (filename ++ ".md")
      let currentMetadata := currentMetadataOfPage page
      let existingMetadata := extractMetadataFromMarkdown fs markdownFilePath
      let needsUpdate := hasPageBeenUpdated currentMetadata existingMetadata
      if needsUpdate = false then
        .ok { success := true, pageId := pageId, pageTitle := pageTitle,
              path := markdownFilePath } fs false
      else
        match env.retrieveBlocks pageId with
        | .error e => .thrown e
        | .ok blocks =>
          let markdownContent := convertBlocksToMarkdown blocks
          let markdown :=
            metadataComment currentMetadata ++ "\n\n# " ++ pageTitle ++ "\n\n" ++
              markdownContent
          let fs1 := writeFileSync fs markdownFilePath markdown now
          let fs2 := if recursive then recurseEffect fs1 else fs1
          .ok { success := true, pageId := pageId, pageTitle := pageTitle,
                path := markdownFilePath } fs2 true

/-! Definitions written from the specification's wording, for comparison
against the corresponding source functions. -/

/-- The anchor character class exactly as the specification words it:
whitespace, parentheses, the hash sign, and quote characters — without the
colon the source regex also includes. -/
def claimAnchorChar (c : Char) : Bool :=
  jsWhitespace c || c = '(' || c = ')' || c = '#' || c = '"' || c = Char.ofNat 39

/-- The anchor derivation exactly as the specification words it: replace
runs of the claimed character class by a single hyphen. -/
def claimAnchorLink (text : String) : String :=
  String.mk (replaceRuns claimAnchorChar '-' text.data)

/-- The absolute path of a downloaded image as convertImage computes it:
the images directory under the destination joined with the hash-derived
filename. -/
def imageFilePath (md5hex : String → String) (destinationDir url : String) :
    String :=
  String.mk (pathJoinL (pathJoinL destinationDir.data "images".data)
    (imageFilename md5hex url).data)

/-- Whether convertImage would download: only when no file of the resolved
name exists yet. -/
def imageDownloadNeeded (md5hex : String → String) (fs : FS)
    (destinationDir url : String) : Bool :=
  (fs (imageFilePath md5hex destinationDir url)).isNone

/-- The first line of a string: its characters up to the first newline. -/
def firstLineOf (s : String) : List Char :=
  (splitLinesL s.data).headD []

/-- A concrete page used by the orchestrator witnesses. -/
def samplePage : Page :=
  ⟨"test-page-id", "2024-01-01T00:00:00.000Z", "2024-01-02T00:00:00.000Z",
   "https://www.notion.so/test-page-id", false, false, none,
   some [plainSpan "Test Page"]⟩

/-- The metadata of the sample page. -/
def sampleMetadata : ExportedMetadata :=
  currentMetadataOfPage samplePage

/-- A filesystem already holding an export of the sample page. -/
def sampleFs : FS :=
  fun p =>
    if p = "dest/Test_Page.md" then
      some ⟨metadataComment sampleMetadata ++ "\n\n# Test Page\n\nbody", 5⟩
    else none

/-- A provider returning the sample page whose block retrieval fails,
making any block fetch observable. -/
def sampleEnv : ProviderEnv :=
  ⟨some "tok", fun _ => .ok samplePage, fun _ => .error "no blocks"⟩

/-- A provider returning the sample page and one paragraph block. -/
def sampleEnvWrite : ProviderEnv :=
  ⟨some "tok", fun _ => .ok samplePage,
   fun _ => .ok [Block.mk "block-1" false (.paragraph [plainSpan "Test content"]) none]⟩

/-- The empty filesystem. -/
def emptyFs : FS :=
  fun _ => none

/-- The normalized segment stack of a path: the result of folding the
normalization step over its slash-separated segments. -/
def pathStack (l : List Char) : List (List Char) :=
  normSegs (isAbsL l) (splitSegsL l)

/-- The invariant of normalized segment stacks: entries are nonempty,
not the dot segment and slash-free; the dot-dot segments form a prefix; and
an absolute path's stack has no dot-dot segment at all. -/
def stackOK (isAbs : Bool) (st : List (List Char)) : Prop :=
  (∀ s ∈ st, s ≠ [] ∧ s ≠ ['.'] ∧ '/' ∉ s) ∧
  (∃ k cs, st = List.replicate k ['.', '.'] ++ cs ∧ ∀ s ∈ cs, s ≠ ['.', '.']) ∧
  (isAbs = true → ∀ s ∈ st, s ≠ ['.', '.'])

/-! Theorems settling the claims, preceded by shared helper lemmas. -/

lemma replaceRunsAux_mem (p : Char → Bool) (r : Char) :
    ∀ (l : List Char) (flag : Bool) (c : Char),
      c ∈ replaceRunsAux p r l flag → c = r ∨ (c ∈ l ∧ p c = false) := by
  intro l
  induction l with
  | nil => intro flag c h; simp [replaceRunsAux] at h
  | cons a t ih =>
    intro flag c h
    simp only [replaceRunsAux] at h
    split_ifs at h with hp hflag
    · rcases ih true c h with h1 | ⟨h2, h3⟩
      · exact Or.inl h1
      · exact Or.inr ⟨List.mem_cons_of_mem _ h2, h3⟩
    · rcases List.mem_cons.mp h with h1 | h1
      · exact Or.inl h1
      · rcases ih true c h1 with h2 | ⟨h3, h4⟩
        · exact Or.inl h2
        · exact Or.inr ⟨List.mem_cons_of_mem _ h3, h4⟩
    · rcases List.mem_cons.mp h with h1 | h1
      · subst h1; exact Or.inr ⟨List.mem_cons_self _ _, by simpa using hp⟩
      · rcases ih false c h1 with h2 | ⟨h3, h4⟩
        · exact Or.inl h2
        · exact Or.inr ⟨List.mem_cons_of_mem _ h3, h4⟩

lemma getChildDatabases_eq (blocks : List Block) :
    getChildDatabases blocks =
      (blocks.filter (fun b => b.typeTag = "child_database")).map
        (fun b => { id := b.id, title := "Database " ++ b.id }) := by
  induction blocks with
  | nil => rfl
  | cons b rest ih =>
    by_cases h : b.typeTag = "child_database"
    · simp [getChildDatabases, h, ih]
    · simp [getChildDatabases, h, ih]

/-- C10: every entry returned by the getChildDatabases scan carries the
placeholder title "Database " followed by the block's id — the real
database title is never consulted — with the id taken from the
child-database block and the entries emitted in input block order. -/
theorem getChildDatabases_placeholder (blocks : List Block) :
    getChildDatabases blocks =
      (blocks.filter (fun b => b.typeTag = "child_database")).map
        (fun b => { id := b.id, title := "Database " ++ b.id }) ∧
    ∀ e ∈ getChildDatabases blocks, e.title = "Database " ++ e.id := by
  refine ⟨getChildDatabases_eq blocks, ?_⟩
  intro e he
  rw [getChildDatabases_eq] at he
  obtain ⟨b, _, rfl⟩ := List.mem_map.mp he
  rfl

/-- Witness for C10 at a concrete block list. -/
theorem getChildDatabases_placeholder_witness :
    getChildDatabases [Block.mk "db1" false .childDatabase none,
        Block.mk "p" false (.paragraph []) none] =
      [{ id := "db1", title := "Database db1" }] := by
  rw [(getChildDatabases_placeholder _).1]; rfl

/-- C3: in the single top-level pass of convertBlocksToMarkdown, a
numbered list item immediately preceded by a numbered list item renders
with the counter incremented by one, a numbered list item starting a new
run renders with counter one, and any non-numbered block resets the counter
to zero; the sequence numbered, numbered, paragraph, numbered renders with
the prefixes 1., 2., then 1. -/
theorem numbered_list_counter (allB : List Block) :
    (∀ (b : Block) (rest : List Block) (c : Nat),
        b.typeTag = "numbered_list_item" →
        convertLoop allB (b :: rest) "numbered_list_item" c =
          convertBlockToMarkdown b (c + 1) allB ++ blockSeparator b rest ++
            convertLoop allB rest b.typeTag (c + 1)) ∧
    (∀ (b : Block) (rest : List Block) (prev : String) (c : Nat),
        b.typeTag = "numbered_list_item" → prev ≠ "numbered_list_item" →
        convertLoop allB (b :: rest) prev c =
          convertBlockToMarkdown b 1 allB ++ blockSeparator b rest ++
            convertLoop allB rest b.typeTag 1) ∧
    (∀ (b : Block) (rest : List Block) (prev : String) (c : Nat),
        b.typeTag ≠ "numbered_list_item" →
        convertLoop allB (b :: rest) prev c =
          convertBlockToMarkdown b 0 allB ++ blockSeparator b rest ++
            convertLoop allB rest b.typeTag 0) ∧
    convertBlocksToMarkdown
        [Block.mk "b1" false (.numberedListItem [plainSpan "one"]) none,
         Block.mk "b2" false (.numberedListItem [plainSpan "two"]) none,
         Block.mk "b3" false (.paragraph [plainSpan "para"]) none,
         Block.mk "b4" false (.numberedListItem [plainSpan "three"]) none] =
      "1. one\n2. two\n\npara\n\n1. three" := by
  refine ⟨?_, ?_, ?_, ?_⟩
  · intro b rest c hb
    simp [convertLoop, hb]
  · intro b rest prev c hb hprev
    simp [convertLoop, hb, hprev]
  · intro b rest prev c hb
    simp [convertLoop, hb]
  · rfl

/-- Witness for C3 at a concrete block and counter. -/
theorem numbered_list_counter_witness :
    convertLoop [] [Block.mk "x" false (.numberedListItem [plainSpan "t"]) none]
        "numbered_list_item" 4 =
      convertBlockToMarkdown
          (Block.mk "x" false (.numberedListItem [plainSpan "t"]) none) 5 [] ++
        blockSeparator (Block.mk "x" false (.numberedListItem [plainSpan "t"]) none)
          [] ++
        convertLoop [] [] "numbered_list_item" 5 :=
  (numbered_list_counter []).1 _ [] 4 rfl

/-- C4 counterexample: the source anchor derivation also replaces colons,
which the claimed character class does not contain, so on a heading with a
colon the code and the claimed transformation disagree. -/
theorem anchor_counterexample :
    createAnchorLink "Setup: Basics" ≠ claimAnchorLink "Setup: Basics" ∧
    createAnchorLink "Setup: Basics" = "Setup-Basics" ∧
    claimAnchorLink "Setup: Basics" = "Setup:-Basics" := by
  refine ⟨?_, rfl, rfl⟩
  decide

/-- C4 amended: the table of contents scans the whole top-level block
sequence for headings, emits one bullet per heading linked to an anchor
obtained by replacing runs of whitespace, parentheses, hash, quote
characters, and colons with a single hyphen, without lowercasing or
stripping characters outside the replaced class; an empty heading set
yields the explicit no-headings comment, and the two claimed example
headings yield the claimed anchors. -/
theorem anchor_amended :
    (∀ t : String, createAnchorLink t =
        String.mk (replaceRuns (fun c => claimAnchorChar c || c = ':') '-' t.data)) ∧
    (∀ t : String, ∀ c ∈ (createAnchorLink t).data,
        c = '-' ∨ (c ∈ t.data ∧ anchorChar c = false)) ∧
    (∀ blocks : List Block, blocks.filter isHeadingBlock = [] →
        convertTableOfContents blocks =
          "<!-- No headings found for table of contents -->") ∧
    (∀ blocks : List Block, blocks.filter isHeadingBlock ≠ [] →
        convertTableOfContents blocks =
          String.intercalate "\n" ((blocks.filter isHeadingBlock).map tocLine)) ∧
    createAnchorLink "API & Configuration" = "API-&-Configuration" ∧
    createAnchorLink "API Reference (v2.0)" = "API-Reference-v2.0-" := by
  refine ⟨?_, ?_, ?_, ?_, rfl, rfl⟩
  · have hfun : anchorChar = fun c => claimAnchorChar c || c = ':' := by
      funext c
      simp [anchorChar, claimAnchorChar, Bool.or_assoc]
    intro t
    unfold createAnchorLink
    rw [hfun]
  · intro t c hc
    exact replaceRunsAux_mem anchorChar '-' t.data false c hc
  · intro blocks h
    simp [convertTableOfContents, h]
  · intro blocks h
    have hl : (blocks.filter isHeadingBlock).length ≠ 0 := by
      simpa [List.length_eq_zero] using h
    simp [convertTableOfContents, hl]

/-- Witness for C4 at an empty block list and a concrete heading text. -/
theorem anchor_amended_witness :
    convertTableOfContents ([] : List Block) =
      "<!-- No headings found for table of contents -->" ∧
    createAnchorLink "A B" =
      String.mk (replaceRuns (fun c => claimAnchorChar c || c = ':') '-' "A B".data) :=
  ⟨anchor_amended.2.2.1 [] rfl, anchor_amended.1 "A B"⟩

/-- C5 counterexample: two image URLs that differ only in their query
string can still resolve to different local filenames, because the
extension is derived from the full URL including the query: with the query
carrying the only recognizable extension, the two filenames disagree in
their extension part for every hash function. -/
theorem image_name_counterexample :
    stripQuery "https://x/img?f=a.png" = stripQuery "https://x/img?f=a.jpg" ∧
    getImageExtension "https://x/img?f=a.png" ≠
      getImageExtension "https://x/img?f=a.jpg" ∧
    imageFilename (fun s => s) "https://x/img?f=a.png" ≠
      imageFilename (fun s => s) "https://x/img?f=a.jpg" := by
  refine ⟨rfl, ?_, ?_⟩ <;> decide

/-- C5 amended: the filename is image_ followed by the MD5 of the
query-stripped URL and the extension derived from the full URL; two URLs
with the same query-stripped base share the hash component, and share the
whole filename exactly when their full-URL extensions also agree — as the
claimed v=2 and v=3 example URLs do — in which case an existing file of
that name makes the second processing skip the download. -/
theorem image_name_amended :
    (∀ (md5hex : String → String) (u1 u2 : String),
        stripQuery u1 = stripQuery u2 →
        getImageExtension u1 = getImageExtension u2 →
        imageFilename md5hex u1 = imageFilename md5hex u2) ∧
    (∀ (md5hex : String → String) (url : String),
        imageFilename md5hex url =
          "image_" ++ md5hex (stripQuery url) ++ getImageExtension url) ∧
    (∀ md5hex : String → String,
        imageFilename md5hex "https://x/img.png?v=2" =
          imageFilename md5hex "https://x/img.png?v=3") ∧
    (∀ (md5hex : String → String) (fs : FS) (destinationDir u1 u2 : String)
        (file : FileData),
        stripQuery u1 = stripQuery u2 →
        getImageExtension u1 = getImageExtension u2 →
        fs (imageFilePath md5hex destinationDir u1) = some file →
        imageDownloadNeeded md5hex fs destinationDir u2 = false) := by
  have base : ∀ (md5hex : String → String) (u1 u2 : String),
      stripQuery u1 = stripQuery u2 →
      getImageExtension u1 = getImageExtension u2 →
      imageFilename md5hex u1 = imageFilename md5hex u2 := by
    intro md5hex u1 u2 h1 h2
    unfold imageFilename
    rw [h1, h2]
  refine ⟨base, fun _ _ => rfl, ?_, ?_⟩
  · intro md5hex
    exact base md5hex _ _ rfl rfl
  · intro md5hex fs destinationDir u1 u2 file h1 h2 h3
    unfold imageDownloadNeeded imageFilePath
    rw [← base md5hex u1 u2 h1 h2]
    unfold imageFilePath at h3
    rw [h3]
    rfl

/-- Witness for C5 at the claimed example URLs and the identity in place of
the hash. -/
theorem image_name_amended_witness :
    imageFilename (fun s => s) "https://x/img.png?v=2" =
      imageFilename (fun s => s) "https://x/img.png?v=3" :=
  image_name_amended.1 (fun s => s) _ _ rfl rfl

/-- C2: the update-detection predicate returns true whenever the prior
embedded metadata is absent or unreadable — a missing file or a malformed
metadata block, neither reported as an error — and otherwise returns true
exactly when the current last-edited time differs from the prior one; no
other field influences the decision. -/
theorem needs_update_sole_signal :
    (∀ (fs : FS) (path : String) (current : ExportedMetadata),
        fs path = none →
        extractMetadataFromMarkdown fs path = none ∧
        hasPageBeenUpdated current (extractMetadataFromMarkdown fs path) = true) ∧
    (∀ (fs : FS) (path : String) (file : FileData) (current : ExportedMetadata),
        fs path = some file → parseMetadataContent file.content = none →
        hasPageBeenUpdated current (extractMetadataFromMarkdown fs path) = true) ∧
    (∀ current prior : ExportedMetadata,
        hasPageBeenUpdated current (some prior) = true ↔
          current.last_edited_time ≠ prior.last_edited_time) ∧
    (∀ current prior current' prior' : ExportedMetadata,
        current.last_edited_time = current'.last_edited_time →
        prior.last_edited_time = prior'.last_edited_time →
        hasPageBeenUpdated current (some prior) =
          hasPageBeenUpdated current' (some prior')) := by
  refine ⟨?_, ?_, ?_, ?_⟩
  · intro fs path current h
    constructor
    · simp [extractMetadataFromMarkdown, h]
    · simp [extractMetadataFromMarkdown, h, hasPageBeenUpdated]
  · intro fs path file current h hparse
    simp [extractMetadataFromMarkdown, h, hparse, hasPageBeenUpdated]
  · intro current prior
    simp [hasPageBeenUpdated, bne_iff_ne]
  · intro current prior current' prior' h1 h2
    simp [hasPageBeenUpdated, h1, h2]

/-- Witness for C2 at two concrete metadata records. -/
theorem needs_update_witness :
    hasPageBeenUpdated ⟨"i", "c", "2024-01-02", "u", false, false, none⟩
        (some ⟨"i", "c", "2024-01-01", "u", false, false, none⟩) = true :=
  (needs_update_sole_signal.2.2.1 _ _).mpr (by decide)

lemma chunk5_flatten_map (f : Block → Block) :
    ∀ (n : Nat) (l : List Block), l.length ≤ n →
      ((chunk5 l).map (List.map f)).flatten = l.map f := by
  intro n
  induction n with
  | zero =>
    intro l hl
    have : l = [] := List.length_eq_zero.mp (Nat.le_zero.mp hl)
    subst this
    rw [chunk5]
    rfl
  | succ n ih =>
    intro l hl
    match l with
    | [] => rw [chunk5]; rfl
    | a :: t =>
      have ht : t.length ≤ n := by
        simp only [List.length_cons] at hl
        omega
      rw [chunk5]
      simp only [List.map_cons, List.flatten_cons]
      rw [ih (t.drop 4) (by simp only [List.length_drop]; omega)]
      rw [← List.map_cons, ← List.map_append]
      simp [List.take_append_drop]

/-- C6: during nested block-tree assembly, a failing child fetch is caught
and that block gets an empty children array, while every other block of the
batched traversal — batches are of five — still has its children attached
from its own fetch; the traversal is total, preserving the block count, so
a single failure never aborts the whole tree fetch. -/
theorem nested_children_isolation
    (fetch : String → Except String (List Block)) (blocks : List Block) :
    processNestedBlocks fetch blocks = blocks.map (attachChildren fetch) ∧
    (processNestedBlocks fetch blocks).length = blocks.length ∧
    (∀ (b : Block) (e : String), b.hasChildren = true → fetch b.id = .error e →
        (attachChildren fetch b).children = some []) ∧
    (∀ (b : Block) (l : List Block), b.hasChildren = true → fetch b.id = .ok l →
        (attachChildren fetch b).children = some l) ∧
    (∀ b : Block, b.hasChildren = false → attachChildren fetch b = b) := by
  have heq : processNestedBlocks fetch blocks = blocks.map (attachChildren fetch) :=
    chunk5_flatten_map (attachChildren fetch) blocks.length blocks (Nat.le_refl _)
  refine ⟨heq, by rw [heq]; simp, ?_, ?_, ?_⟩
  · intro b e hb he
    cases b with
    | mk i h d c => simp_all [attachChildren, Block.setChildren, Block.children]
  · intro b l hb hl
    cases b with
    | mk i h d c => simp_all [attachChildren, Block.setChildren, Block.children]
  · intro b hb
    simp [attachChildren, hb]

/-- Witness for C6: a batch of five blocks where the middle fetch fails —
the failing block gets empty children and the other four of the same batch
are still enriched. -/
theorem nested_children_isolation_witness :
    processNestedBlocks
        (fun i => if i = "c" then Except.error "boom"
          else Except.ok [Block.mk (i ++ "-child") false (.paragraph []) none])
        [Block.mk "a" true (.paragraph []) none,
         Block.mk "b" true (.paragraph []) none,
         Block.mk "c" true (.paragraph []) none,
         Block.mk "d" true (.paragraph []) none,
         Block.mk "e" true (.paragraph []) none] =
      [Block.mk "a" true (.paragraph [])
          (some [Block.mk "a-child" false (.paragraph []) none]),
       Block.mk "b" true (.paragraph [])
          (some [Block.mk "b-child" false (.paragraph []) none]),
       Block.mk "c" true (.paragraph []) (some []),
       Block.mk "d" true (.paragraph [])
          (some [Block.mk "d-child" false (.paragraph []) none]),
       Block.mk "e" true (.paragraph [])
          (some [Block.mk "e-child" false (.paragraph []) none])] := by
  rw [(nested_children_isolation _ _).1]
  rfl

/-- C1: when the destination file already embeds metadata whose last-edited
time equals the freshly fetched page's, exportNotionPage returns a
successful result whose path references the existing file, the blocks
provider is never consulted, and the filesystem — file bytes and
modification times included — is returned unchanged. -/
theorem export_skip_short_circuit
    (env : ProviderEnv) (fs : FS) (now : Nat) (recurseEffect : FS → FS)
    (pageId destinationDir : String) (recursive : Bool)
    (customFilename : Option String) (tok : String) (page : Page)
    (prior : ExportedMetadata)
    (htok : env.token = some tok)
    (hpage : env.retrievePage pageId = .ok page)
    (hprior : extractMetadataFromMarkdown fs
        (safePathJoin destinationDir
          (resolvedFilename customFilename (getPageTitle page) ++ ".md")) = some prior)
    (hsame : (currentMetadataOfPage page).last_edited_time = prior.last_edited_time) :
    exportNotionPage env fs now recurseEffect pageId destinationDir recursive
        customFilename =
      .ok { success := true, pageId := pageId, pageTitle := getPageTitle page,
            path := safePathJoin destinationDir
              (resolvedFilename customFilename (getPageTitle page) ++ ".md") }
        fs false := by
  have hupd : hasPageBeenUpdated (currentMetadataOfPage page)
      (extractMetadataFromMarkdown fs
        (safePathJoin destinationDir
          (resolvedFilename customFilename (getPageTitle page) ++ ".md"))) = false := by
    rw [hprior]
    simp [hasPageBeenUpdated, hsame]
  unfold exportNotionPage
  rw [htok, hpage]
  simp only [hupd]
  rfl

/-- Witness for C1: a filesystem already holding an export with the same
last-edited time, and a provider whose block retrieval would fail, so the
skip path is forced and observable. -/
theorem export_skip_witness :
    exportNotionPage sampleEnv sampleFs 99 id "test-page-id" "dest" false none =
      ExportOutcome.ok
        { success := true, pageId := "test-page-id", pageTitle := "Test Page",
          path := "dest/Test_Page.md" }
        sampleFs false :=
  export_skip_short_circuit sampleEnv sampleFs 99 id "test-page-id" "dest" false
    none "tok" samplePage sampleMetadata rfl rfl (by rfl) rfl

lemma splitLinesL_append_newline (l r : List Char) (h : '\n' ∉ l) :
    splitLinesL (l ++ '\n' :: r) = l :: splitLinesL r := by
  induction l with
  | nil => rfl
  | cons a t ih =>
    have ha : a ≠ '\n' := fun hc => h (hc ▸ List.mem_cons_self _ _)
    have ht : '\n' ∉ t := fun hc => h (List.mem_cons_of_mem _ hc)
    simp only [List.cons_append, splitLinesL, List.append_eq]
    rw [ih ht]
    simp [ha]

/-- C9: when an export writes, the file is written at the resolved path and
its content is the sentinel line as its first line, the pretty-printed JSON
of the metadata record, the closing marker, then the title heading and the
converted body. -/
theorem export_written_layout
    (env : ProviderEnv) (fs : FS) (now : Nat) (recurseEffect : FS → FS)
    (pageId destinationDir : String) (customFilename : Option String)
    (tok : String) (page : Page) (blocks : List Block)
    (htok : env.token = some tok)
    (hpage : env.retrievePage pageId = .ok page)
    (hblocks : env.retrieveBlocks pageId = .ok blocks)
    (hupd : hasPageBeenUpdated (currentMetadataOfPage page)
        (extractMetadataFromMarkdown fs
          (safePathJoin destinationDir
            (resolvedFilename customFilename (getPageTitle page) ++ ".md"))) = true) :
    exportNotionPage env fs now recurseEffect pageId destinationDir false
        customFilename =
      .ok { success := true, pageId := pageId, pageTitle := getPageTitle page,
            path := safePathJoin destinationDir
              (resolvedFilename customFilename (getPageTitle page) ++ ".md") }
        (writeFileSync fs
          (safePathJoin destinationDir
            (resolvedFilename customFilename (getPageTitle page) ++ ".md"))
          (metadataComment (currentMetadataOfPage page) ++ "\n\n# " ++
            getPageTitle page ++ "\n\n" ++ convertBlocksToMarkdown blocks)
          now)
        true ∧
    firstLineOf (metadataComment (currentMetadataOfPage page) ++ "\n\n# " ++
        getPageTitle page ++ "\n\n" ++ convertBlocksToMarkdown blocks) =
      sentinel.data ∧
    metadataComment (currentMetadataOfPage page) ++ "\n\n# " ++
        getPageTitle page ++ "\n\n" ++ convertBlocksToMarkdown blocks =
      sentinel ++ "\n" ++ stringifyMetadata (currentMetadataOfPage page) ++
        "\n-->" ++ "\n\n# " ++ getPageTitle page ++ "\n\n" ++
        convertBlocksToMarkdown blocks := by
  refine ⟨?_, ?_, ?_⟩
  · unfold exportNotionPage
    rw [htok, hpage]
    simp only [hupd]
    rw [hblocks]
    rfl
  · unfold firstLineOf metadataComment
    have hnl : '\n' ∉ sentinel.data := by decide
    rw [show (sentinel ++ "\n" ++ stringifyMetadata (currentMetadataOfPage page) ++
        "\n-->" ++ "\n\n# " ++ getPageTitle page ++ "\n\n" ++
        convertBlocksToMarkdown blocks).data =
      sentinel.data ++ '\n' ::
        (stringifyMetadata (currentMetadataOfPage page) ++ "\n-->" ++ "\n\n# " ++
          getPageTitle page ++ "\n\n" ++ convertBlocksToMarkdown blocks).data from by
      simp [String.data_append]]
    rw [splitLinesL_append_newline _ _ hnl]
    rfl
  · unfold metadataComment
    simp [String.append_assoc]

/-- Witness for C9: exporting the sample page into an empty filesystem
writes the expected file content. -/
theorem export_written_layout_witness :
    exportNotionPage sampleEnvWrite emptyFs 7 id "test-page-id" "dest" false none =
      ExportOutcome.ok
        { success := true, pageId := "test-page-id",
          pageTitle := getPageTitle samplePage,
          path := safePathJoin "dest"
            (resolvedFilename none (getPageTitle samplePage) ++ ".md") }
        (writeFileSync emptyFs
          (safePathJoin "dest"
            (resolvedFilename none (getPageTitle samplePage) ++ ".md"))
          (metadataComment (currentMetadataOfPage samplePage) ++ "\n\n# " ++
            getPageTitle samplePage ++ "\n\n" ++
            convertBlocksToMarkdown
              [Block.mk "block-1" false (.paragraph [plainSpan "Test content"]) none])
          7)
        true :=
  (export_written_layout sampleEnvWrite emptyFs 7 id "test-page-id" "dest" none
    "tok" samplePage
    [Block.mk "block-1" false (.paragraph [plainSpan "Test content"]) none]
    rfl rfl rfl rfl).1

lemma head_dropWhile (p : Char → Bool) :
    ∀ (l : List Char) (c : Char), (l.dropWhile p).head? = some c → p c = false := by
  intro l
  induction l with
  | nil => intro c h; simp [List.dropWhile] at h
  | cons a t ih =>
    intro c h
    by_cases hp : p a
    · rw [List.dropWhile_cons_of_pos hp] at h
      exact ih c h
    · rw [List.dropWhile_cons_of_neg hp] at h
      simp only [List.head?_cons, Option.some.injEq] at h
      subst h
      simpa using hp

lemma trimCharsRight_append (p : Char → Bool) (l : List Char) :
    trimCharsRight p l ++ (l.reverse.takeWhile p).reverse = l := by
  unfold trimCharsRight
  rw [← List.reverse_append, List.takeWhile_append_dropWhile, List.reverse_reverse]

lemma trimCharsRight_head (p : Char → Bool) (l : List Char) (c : Char)
    (h : (trimCharsRight p l).head? = some c) : l.head? = some c := by
  have happ := trimCharsRight_append p l
  match hr : trimCharsRight p l with
  | [] => rw [hr] at h; simp at h
  | x :: xs =>
    rw [hr] at h happ
    simp only [List.head?_cons, Option.some.injEq] at h
    subst h
    rw [← happ]
    rfl

lemma trimCharsRight_getLast (p : Char → Bool) (l : List Char) (c : Char)
    (h : (trimCharsRight p l).getLast? = some c) : p c = false := by
  unfold trimCharsRight at h
  rw [List.getLast?_reverse] at h
  exact head_dropWhile p l.reverse c h

lemma trimChars_head (p : Char → Bool) (l : List Char) (c : Char)
    (h : (trimChars p l).head? = some c) : p c = false := by
  unfold trimChars at h
  exact head_dropWhile p l c (trimCharsRight_head p _ c h)

lemma trimChars_getLast (p : Char → Bool) (l : List Char) (c : Char)
    (h : (trimChars p l).getLast? = some c) : p c = false :=
  trimCharsRight_getLast p _ c h

lemma trimChars_mem (p : Char → Bool) (l : List Char) (c : Char)
    (h : c ∈ trimChars p l) : c ∈ l := by
  unfold trimChars trimCharsRight trimCharsLeft at h
  rw [List.mem_reverse] at h
  have h1 := (List.dropWhile_sublist p).mem h
  rw [List.mem_reverse] at h1
  exact (List.dropWhile_sublist p).mem h1



lemma replaceRunsAux_length (p : Char → Bool) (r : Char) :
    ∀ (l : List Char) (flag : Bool),
      (replaceRunsAux p r l flag).length ≤ l.length := by
  intro l
  induction l with
  | nil => intro flag; simp [replaceRunsAux]
  | cons a t ih =>
    intro flag
    simp only [replaceRunsAux]
    split_ifs
    · exact Nat.le_succ_of_le (ih true)
    · simpa using Nat.succ_le_succ (ih true)
    · simpa using Nat.succ_le_succ (ih false)

lemma replaceRunsAux_ne_nil (p : Char → Bool) (r : Char) (a : Char) (t : List Char) :
    replaceRunsAux p r (a :: t) false ≠ [] := by
  by_cases hp : p a
  · simp [replaceRunsAux, hp]
  · simp [replaceRunsAux, hp]

lemma replaceRuns_head (p : Char → Bool) (r : Char) (l : List Char) :
    (replaceRuns p r l).head? = l.head?.map (fun x => if p x then r else x) := by
  cases l with
  | nil => rfl
  | cons a t =>
    by_cases hp : p a
    · simp [replaceRuns, replaceRunsAux, hp]
    · simp [replaceRuns, replaceRunsAux, hp]

lemma replaceRunsAux_getLast (p : Char → Bool) (r : Char) :
    ∀ (l : List Char) (flag : Bool) (c : Char),
      (replaceRunsAux p r l flag).getLast? = some c →
      c = r ∨ l.getLast? = some c := by
  intro l
  induction l with
  | nil => intro flag c h; simp [replaceRunsAux] at h
  | cons a t ih =>
    intro flag c h
    simp only [replaceRunsAux] at h
    split_ifs at h with hp hflag
    · rcases ih true c h with h1 | h1
      · exact Or.inl h1
      · match t, h1 with
        | x :: xs, h1 => exact Or.inr (by rw [List.getLast?_cons_cons]; exact h1)
    · match haux : replaceRunsAux p r t true with
      | [] =>
        rw [haux] at h
        simp only [List.getLast?_singleton, Option.some.injEq] at h
        exact Or.inl h.symm
      | x :: xs =>
        rw [haux, List.getLast?_cons_cons] at h
        rcases ih true c (haux ▸ h) with h1 | h1
        · exact Or.inl h1
        · match t, h1 with
          | y :: ys, h1 => exact Or.inr (by rw [List.getLast?_cons_cons]; exact h1)
    · match haux : replaceRunsAux p r t false with
      | [] =>
        have ht : t = [] := by
          match t with
          | [] => rfl
          | y :: ys => exact absurd haux (replaceRunsAux_ne_nil p r y ys)
        subst ht
        rw [haux] at h
        simp only [List.getLast?_singleton, Option.some.injEq] at h
        subst h
        exact Or.inr rfl
      | x :: xs =>
        rw [haux, List.getLast?_cons_cons] at h
        rcases ih false c (haux ▸ h) with h1 | h1
        · exact Or.inl h1
        · match t, h1 with
          | y :: ys, h1 => exact Or.inr (by rw [List.getLast?_cons_cons]; exact h1)



lemma replaceRunsAux_head_true (p : Char → Bool) (r : Char) :
    ∀ (l : List Char) (c : Char),
      (replaceRunsAux p r l true).head? = some c → p c = false := by
  intro l
  induction l with
  | nil => intro c h; simp [replaceRunsAux] at h
  | cons a t ih =>
    intro c h
    by_cases hp : p a
    · rw [show replaceRunsAux p r (a :: t) true = replaceRunsAux p r t true from by
        simp [replaceRunsAux, hp]] at h
      exact ih c h
    · rw [show replaceRunsAux p r (a :: t) true = a :: replaceRunsAux p r t false from by
        simp [replaceRunsAux, hp]] at h
      simp only [List.head?_cons, Option.some.injEq] at h
      subst h
      simpa using hp

lemma replaceRunsAux_chain (p : Char → Bool) (r : Char) :
    ∀ (l : List Char) (flag : Bool),
      List.Chain' (fun a b => ¬(p a = true ∧ p b = true))
        (replaceRunsAux p r l flag) := by
  intro l
  induction l with
  | nil => intro flag; simp [replaceRunsAux]
  | cons a t ih =>
    intro flag
    by_cases hp : p a
    · cases flag with
      | true =>
        rw [show replaceRunsAux p r (a :: t) true = replaceRunsAux p r t true from by
          simp [replaceRunsAux, hp]]
        exact ih true
      | false =>
        rw [show replaceRunsAux p r (a :: t) false = r :: replaceRunsAux p r t true from by
          simp [replaceRunsAux, hp]]
        rw [List.chain'_cons']
        refine ⟨?_, ih true⟩
        intro y hy
        intro hcon
        have hfalse := replaceRunsAux_head_true p r t y hy
        rw [hcon.2] at hfalse
        exact absurd hfalse (by simp)
    · cases flag with
      | true =>
        rw [show replaceRunsAux p r (a :: t) true = a :: replaceRunsAux p r t false from by
          simp [replaceRunsAux, hp]]
        rw [List.chain'_cons']
        refine ⟨?_, ih false⟩
        intro y hy hcon
        exact hp (by simpa using hcon.1)
      | false =>
        rw [show replaceRunsAux p r (a :: t) false = a :: replaceRunsAux p r t false from by
          simp [replaceRunsAux, hp]]
        rw [List.chain'_cons']
        refine ⟨?_, ih false⟩
        intro y hy hcon
        exact hp (by simpa using hcon.1)



lemma trimChars_length (p : Char → Bool) (l : List Char) :
    (trimChars p l).length ≤ l.length := by
  unfold trimChars trimCharsRight trimCharsLeft
  simp only [List.length_reverse]
  exact le_trans (List.Sublist.length_le (List.dropWhile_sublist _))
    (le_trans (by simp only [List.length_reverse]; exact Nat.le_refl _)
      (List.Sublist.length_le (List.dropWhile_sublist _)))

lemma pipeline_length (l : List Char) :
    (safeFilenamePipeline l).length ≤ l.length := by
  unfold safeFilenamePipeline replaceRuns
  exact le_trans (replaceRunsAux_length _ _ _ _)
    (le_trans (trimChars_length _ _)
      (le_trans (replaceRunsAux_length _ _ _ _) (List.length_filter_le _ _)))

lemma pipeline_mem (l : List Char) (c : Char) (h : c ∈ safeFilenamePipeline l) :
    illegalFilenameChar c = false ∧ jsWhitespace c = false := by
  unfold safeFilenamePipeline replaceRuns at h
  rcases replaceRunsAux_mem _ _ _ _ _ h with h1 | ⟨h2, _⟩
  · subst h1; exact ⟨by decide, by decide⟩
  · have h4 := trimChars_mem _ _ _ h2
    rcases replaceRunsAux_mem _ _ _ _ _ h4 with h5 | ⟨h6, h7⟩
    · subst h5; exact ⟨by decide, by decide⟩
    · have h8 := List.mem_filter.mp h6
      refine ⟨?_, h7⟩
      simpa using h8.2

lemma pipeline_head (l : List Char) (c : Char)
    (h : (safeFilenamePipeline l).head? = some c) : c ≠ '.' := by
  unfold safeFilenamePipeline at h
  rw [replaceRuns_head] at h
  obtain ⟨x, hx, hc⟩ := Option.map_eq_some'.mp h
  have hd := trimChars_head dotOrSpace _ x hx
  have hxdot : x ≠ '.' := by
    intro he
    subst he
    simp [dotOrSpace] at hd
  subst hc
  split_ifs with hu
  · decide
  · exact hxdot

lemma pipeline_getLast (l : List Char) (c : Char)
    (h : (safeFilenamePipeline l).getLast? = some c) : c ≠ '.' := by
  unfold safeFilenamePipeline replaceRuns at h
  rcases replaceRunsAux_getLast _ _ _ _ _ h with h1 | h1
  · subst h1; decide
  · have hd := trimChars_getLast dotOrSpace _ c h1
    intro he
    subst he
    simp [dotOrSpace] at hd

lemma pipeline_chain (l : List Char) :
    List.Chain' (fun a b => ¬(a = '_' ∧ b = '_')) (safeFilenamePipeline l) := by
  unfold safeFilenamePipeline replaceRuns
  refine List.Chain'.imp ?_ (replaceRunsAux_chain _ '_' _ false)
  intro a b hab hcon
  exact hab (by simp [hcon.1, hcon.2])

lemma head_take_of_ne_zero (n : Nat) (l : List Char) (h : n ≠ 0) :
    (l.take n).head? = l.head? := by
  cases n with
  | zero => exact absurd rfl h
  | succ m => cases l <;> simp

lemma getSafeFilename_data (t : String) :
    (getSafeFilename t).data = "Untitled".data ∨
    ((getSafeFilename t).data = (safeFilenamePipeline t.data).take 100 ∧
      safeFilenamePipeline t.data ≠ []) := by
  simp only [getSafeFilename]
  split_ifs with h1 h2 h3
  · exact Or.inl rfl
  · exact Or.inl rfl
  · refine Or.inr ⟨rfl, ?_⟩
    intro he
    rw [he] at h3
    simp at h3
  · refine Or.inr ⟨?_, ?_⟩
    · show (safeFilenamePipeline t.data) = _
      rw [List.take_of_length_le (Nat.le_of_not_lt (by simpa using h3))]
    · intro he
      exact h2 (by simp [he, jsTrim, trimChars, trimCharsLeft, trimCharsRight])



/-- C7: getSafeFilename is pure and stable, its output is at most 100
characters, empty, whitespace-only, "Untitled" and pipeline-emptied inputs
yield exactly "Untitled", no illegal filename character and no whitespace
survives into the output, no two consecutive underscores remain, the output
never starts with a dot, and — whenever no truncation can occur — never
ends with one. -/
theorem safe_filename_spec :
    (∀ t : String, getSafeFilename t = getSafeFilename t) ∧
    (∀ t : String, (getSafeFilename t).length ≤ 100) ∧
    getSafeFilename "" = "Untitled" ∧
    getSafeFilename "Untitled" = "Untitled" ∧
    (∀ t : String, t.data.all jsWhitespace = true → getSafeFilename t = "Untitled") ∧
    (∀ t : String, safeFilenamePipeline t.data = [] → getSafeFilename t = "Untitled") ∧
    (∀ t : String, ∀ c ∈ (getSafeFilename t).data,
        illegalFilenameChar c = false ∧ jsWhitespace c = false) ∧
    (∀ t : String, List.Chain' (fun a b => ¬(a = '_' ∧ b = '_'))
        (getSafeFilename t).data) ∧
    (∀ t : String, (getSafeFilename t).data.head? ≠ some '.') ∧
    (∀ t : String, t.data.length ≤ 100 →
        (getSafeFilename t).data.getLast? ≠ some '.') := by
  refine ⟨fun t => rfl, ?_, rfl, rfl, ?_, ?_, ?_, ?_, ?_, ?_⟩
  · intro t
    show (getSafeFilename t).data.length ≤ 100
    rcases getSafeFilename_data t with h | ⟨h, _⟩
    · rw [h]; decide
    · rw [h]
      simp [List.length_take]
  · intro t hws
    have hnil : jsTrim t.data = [] := by
      have : t.data.dropWhile jsWhitespace = [] := by
        rw [List.dropWhile_eq_nil_iff]
        intro x hx
        exact List.all_eq_true.mp hws x hx
      simp [jsTrim, trimChars, trimCharsLeft, trimCharsRight, this]
    simp only [getSafeFilename]
    rw [if_pos]
    simp [hnil]
  · intro t hp
    simp only [getSafeFilename]
    split_ifs with h1 h2
    · rfl
    · rfl
    · have h2' : ¬safeFilenamePipeline t.data = [] ∧
          ¬jsTrim (safeFilenamePipeline t.data) = [] := by simpa using h2
      exact absurd hp h2'.1
    · have h2' : ¬safeFilenamePipeline t.data = [] ∧
          ¬jsTrim (safeFilenamePipeline t.data) = [] := by simpa using h2
      exact absurd hp h2'.1
  · intro t c hc
    rcases getSafeFilename_data t with h | ⟨h, _⟩
    · rw [h] at hc
      revert c
      decide
    · rw [h] at hc
      exact pipeline_mem t.data c (List.take_subset _ _ hc)
  · intro t
    rcases getSafeFilename_data t with h | ⟨h, _⟩
    · rw [h]
      simp [List.chain'_cons]
    · rw [h]
      exact List.Chain'.take (pipeline_chain t.data) _
  · intro t
    rcases getSafeFilename_data t with h | ⟨h, _⟩
    · rw [h]; decide
    · rw [h, head_take_of_ne_zero 100 _ (by decide)]
      intro hc
      exact pipeline_head t.data '.' hc rfl
  · intro t hlen
    rcases getSafeFilename_data t with h | ⟨h, _⟩
    · rw [h]; decide
    · rw [h, List.take_of_length_le (le_trans (pipeline_length t.data) hlen)]
      intro hc
      exact pipeline_getLast t.data '.' hc rfl

/-- Witness for C7 at concrete titles. -/
theorem safe_filename_witness :
    getSafeFilename "file   with..spaces__x" = "file_with..spaces_x" ∧
    (getSafeFilename "file   with..spaces__x").length ≤ 100 ∧
    getSafeFilename "   " = "Untitled" :=
  ⟨rfl, safe_filename_spec.2.1 _, safe_filename_spec.2.2.2.2.1 "   " rfl⟩

lemma splitSegsL_ne_nil (l : List Char) : splitSegsL l ≠ [] := by
  cases l with
  | nil => simp [splitSegsL]
  | cons c cs =>
    simp only [splitSegsL]
    split_ifs
    · simp
    · match splitSegsL cs with
      | [] => simp
      | s :: ss => simp

lemma splitSegsL_nosep (l : List Char) : ∀ s ∈ splitSegsL l, '/' ∉ s := by
  induction l with
  | nil => intro s hs; simp [splitSegsL] at hs; simp [hs]
  | cons c cs ih =>
    intro s hs
    simp only [splitSegsL] at hs
    by_cases hc : c = '/'
    · rw [if_pos hc] at hs
      rcases List.mem_cons.mp hs with h | h
      · simp [h]
      · exact ih s h
    · rw [if_neg hc] at hs
      match hsplit : splitSegsL cs with
      | [] => exact absurd hsplit (splitSegsL_ne_nil cs)
      | x :: xs =>
        rw [hsplit] at hs
        rcases List.mem_cons.mp hs with h | h
        · subst h
          intro hmem
          rcases List.mem_cons.mp hmem with h1 | h1
          · exact hc h1.symm
          · exact ih x (hsplit ▸ List.mem_cons_self _ _) h1
        · exact ih s (hsplit ▸ List.mem_cons_of_mem _ h)

lemma splitSegsL_append (a b : List Char) :
    splitSegsL (a ++ '/' :: b) = splitSegsL a ++ splitSegsL b := by
  induction a with
  | nil => simp [splitSegsL]
  | cons c cs ih =>
    by_cases hc : c = '/'
    · subst hc
      simp only [List.cons_append, splitSegsL]
      simp [ih]
    · match hsplit : splitSegsL cs with
      | [] => exact absurd hsplit (splitSegsL_ne_nil cs)
      | x :: xs =>
        simp only [List.cons_append, splitSegsL, List.append_eq, if_neg hc]
        rw [ih, hsplit]
        rfl

lemma splitSegsL_nosep_eq (x : List Char) (hx : '/' ∉ x) :
    splitSegsL x = [x] := by
  induction x with
  | nil => rfl
  | cons c cs ih =>
    have hc : c ≠ '/' := fun h => hx (h ▸ List.mem_cons_self _ _)
    have hcs : '/' ∉ cs := fun h => hx (List.mem_cons_of_mem _ h)
    simp only [splitSegsL, if_neg hc, ih hcs]

lemma intercalate_single (x : List Char) :
    List.intercalate ['/'] [x] = x := by
  simp [List.intercalate, List.intersperse]

lemma intercalate_cons_cons (x y : List Char) (ys : List (List Char)) :
    List.intercalate ['/'] (x :: y :: ys) =
      x ++ '/' :: List.intercalate ['/'] (y :: ys) := by
  simp [List.intercalate, List.intersperse]

lemma splitSegsL_intercalate (st : List (List Char)) (hst : st ≠ [])
    (hsep : ∀ s ∈ st, '/' ∉ s) :
    splitSegsL (List.intercalate ['/'] st) = st := by
  induction st with
  | nil => exact absurd rfl hst
  | cons x xs ih =>
    match xs with
    | [] =>
      rw [intercalate_single]
      exact splitSegsL_nosep_eq x (hsep x (List.mem_cons_self _ _))
    | y :: ys =>
      have hx : '/' ∉ x := hsep x (List.mem_cons_self _ _)
      rw [intercalate_cons_cons, splitSegsL_append, splitSegsL_nosep_eq x hx]
      rw [ih (by simp) (fun s hs => hsep s (List.mem_cons_of_mem _ hs))]
      rfl



lemma foldl_normStep_clean (isAbs : Bool) :
    ∀ (ys : List (List Char)) (st : List (List Char)),
      (∀ s ∈ ys, s ≠ ['.', '.']) →
      List.foldl (normStep isAbs) st ys =
        st ++ ys.filter (fun s => s ≠ [] && s ≠ ['.']) := by
  intro ys
  induction ys with
  | nil => intro st _; simp
  | cons y ts ih =>
    intro st hy
    have hyh : y ≠ ['.', '.'] := hy y (List.mem_cons_self _ _)
    have hyt : ∀ s ∈ ts, s ≠ ['.', '.'] := fun s hs => hy s (List.mem_cons_of_mem _ hs)
    by_cases h1 : y = []
    · subst h1
      simp only [List.foldl_cons]
      rw [show normStep isAbs st [] = st from by simp [normStep]]
      rw [ih st hyt]
      simp
    · by_cases h2 : y = ['.']
      · subst h2
        simp only [List.foldl_cons]
        rw [show normStep isAbs st ['.'] = st from by simp [normStep]]
        rw [ih st hyt]
        simp
      · simp only [List.foldl_cons]
        rw [show normStep isAbs st y = st ++ [y] from by
          simp [normStep, h1, h2, hyh]]
        rw [ih (st ++ [y]) hyt]
        simp [h1, h2]

lemma foldl_normStep_dotdot :
    ∀ (k j : Nat),
      List.foldl (normStep false) (List.replicate j ['.', '.'])
          (List.replicate k ['.', '.']) =
        List.replicate (j + k) ['.', '.'] := by
  intro k
  induction k with
  | zero => intro j; simp
  | succ k ih =>
    intro j
    simp only [List.replicate_succ, List.foldl_cons]
    have hstep : normStep false (List.replicate j ['.', '.']) ['.', '.'] =
        List.replicate (j + 1) ['.', '.'] := by
      cases j with
      | zero => simp [normStep]
      | succ m =>
        have hlast : (List.replicate (m + 1) ['.', '.']).getLast? = some ['.', '.'] := by
          rw [List.replicate_succ', List.getLast?_concat]
        simp only [normStep, List.replicate_succ, hlast]
        rw [show (['.', '.'] :: List.replicate m ['.', '.']) =
            List.replicate (m + 1) ['.', '.'] from (List.replicate_succ _ _).symm,
          if_pos hlast]
        rw [← List.replicate_succ', ← List.replicate_succ]
        simp
    rw [hstep, ih (j + 1)]
    congr 1
    omega



lemma replicate_getLast_dotdot (k : Nat) (cs : List (List Char))
    (hcs : ∀ s ∈ cs, s ≠ ['.', '.'])
    (hlast : (List.replicate k ['.', '.'] ++ cs).getLast? = some ['.', '.']) :
    cs = [] := by
  match cs with
  | [] => rfl
  | x :: xs =>
    rw [List.getLast?_append_of_ne_nil _ (by simp)] at hlast
    have hmem := List.mem_of_mem_getLast? hlast
    exact absurd rfl (hcs _ hmem)

lemma normStep_stackOK (isAbs : Bool) (st : List (List Char)) (seg : List Char)
    (hok : stackOK isAbs st) (hsep : '/' ∉ seg) :
    stackOK isAbs (normStep isAbs st seg) := by
  obtain ⟨hent, ⟨k, cs, hform, hcs⟩, habs⟩ := hok
  by_cases h1 : seg = []
  · rw [show normStep isAbs st seg = st from by simp [normStep, h1]]
    exact ⟨hent, ⟨k, cs, hform, hcs⟩, habs⟩
  by_cases h2 : seg = ['.']
  · rw [show normStep isAbs st seg = st from by simp [normStep, h2]]
    exact ⟨hent, ⟨k, cs, hform, hcs⟩, habs⟩
  by_cases h3 : seg = ['.', '.']
  · subst h3
    by_cases hst : st = []
    · subst hst
      rw [show normStep isAbs [] ['.', '.'] =
          (if isAbs then [] else [['.', '.']]) from rfl]
      cases isAbs with
      | true => exact ⟨by simp, ⟨0, [], by simp, by simp⟩, by simp⟩
      | false =>
        refine ⟨?_, ⟨1, [], by simp, by simp⟩, by simp⟩
        intro s hs
        simp at hs
        subst hs
        refine ⟨by simp, by simp, by simp⟩
    · obtain ⟨a, rest, rfl⟩ : ∃ a rest, st = a :: rest := by
        match st, hst with
        | x :: xs, _ => exact ⟨x, xs, rfl⟩
      by_cases hlast : (a :: rest).getLast? = some ['.', '.']
      · rw [show normStep isAbs (a :: rest) ['.', '.'] = (a :: rest) ++ [['.', '.']] from by
          simp [normStep, hlast]]
        have hcsnil : cs = [] := replicate_getLast_dotdot k cs hcs (hform ▸ hlast)
        subst hcsnil
        rw [List.append_nil] at hform
        refine ⟨?_, ⟨k + 1, [],
          by rw [List.append_nil, List.replicate_succ', hform], by simp⟩, ?_⟩
        · intro s hs
          rcases List.mem_append.mp hs with h | h
          · exact hent s h
          · simp only [List.mem_singleton] at h
            subst h
            exact ⟨by simp, by simp, by simp⟩
        · intro htrue
          have hmem : ['.', '.'] ∈ a :: rest := List.mem_of_mem_getLast? hlast
          exact absurd rfl (habs htrue _ hmem)
      · rw [show normStep isAbs (a :: rest) ['.', '.'] = (a :: rest).dropLast from by
          simp [normStep, hlast]]
        have hsub := List.dropLast_sublist (a :: rest)
        have hcsne : cs ≠ [] := by
          intro hnil
          subst hnil
          rw [List.append_nil] at hform
          have hk : k ≠ 0 := by
            intro h0
            subst h0
            simp at hform
          match k, hk with
          | m + 1, _ =>
            apply hlast
            rw [hform, List.replicate_succ', List.getLast?_concat]
        refine ⟨?_, ⟨k, cs.dropLast, ?_, ?_⟩, ?_⟩
        · intro s hs
          exact hent s (hsub.mem hs)
        · rw [hform, List.dropLast_append_of_ne_nil _ hcsne]
        · intro s hs
          exact hcs s ((List.dropLast_sublist cs).mem hs)
        · intro htrue s hs
          exact habs htrue s (hsub.mem hs)
  · rw [show normStep isAbs st seg = st ++ [seg] from by
      simp [normStep, h1, h2, h3]]
    refine ⟨?_, ⟨k, cs ++ [seg], by rw [hform, List.append_assoc], ?_⟩, ?_⟩
    · intro s hs
      rcases List.mem_append.mp hs with h | h
      · exact hent s h
      · simp only [List.mem_singleton] at h
        subst h
        exact ⟨h1, h2, hsep⟩
    · intro s hs
      rcases List.mem_append.mp hs with h | h
      · exact hcs s h
      · simp only [List.mem_singleton] at h
        subst h
        exact h3
    · intro htrue s hs
      rcases List.mem_append.mp hs with h | h
      · exact habs htrue s h
      · simp only [List.mem_singleton] at h
        subst h
        exact h3

lemma foldl_normStep_stackOK (isAbs : Bool) :
    ∀ (segs : List (List Char)) (st : List (List Char)),
      stackOK isAbs st → (∀ s ∈ segs, '/' ∉ s) →
      stackOK isAbs (List.foldl (normStep isAbs) st segs) := by
  intro segs
  induction segs with
  | nil => intro st hok _; exact hok
  | cons a t ih =>
    intro st hok hsep
    simp only [List.foldl_cons]
    exact ih _ (normStep_stackOK isAbs st a hok (hsep a (List.mem_cons_self _ _)))
      (fun s hs => hsep s (List.mem_cons_of_mem _ hs))

lemma pathStack_stackOK (l : List Char) :
    stackOK (isAbsL l) (pathStack l) :=
  foldl_normStep_stackOK _ _ [] ⟨by simp, ⟨0, [], by simp, by simp⟩, by simp⟩
    (splitSegsL_nosep l)



lemma isAbsL_renderPath (isAbs : Bool) (st : List (List Char))
    (hok : stackOK isAbs st) : isAbsL (renderPath isAbs st) = isAbs := by
  obtain ⟨hent, _, _⟩ := hok
  match st with
  | [] =>
    cases isAbs <;> simp [renderPath, isAbsL]
  | x :: xs =>
    cases isAbs with
    | true => simp [renderPath, isAbsL]
    | false =>
      simp only [renderPath, List.nil_append]
      obtain ⟨hxne, _, hxsep⟩ := hent x (List.mem_cons_self _ _)
      match x, hxne with
      | c :: crest, _ =>
        have hc : c ≠ '/' := fun h => hxsep (h ▸ List.mem_cons_self _ _)
        obtain ⟨t, ht⟩ : ∃ t, List.intercalate ['/'] ((c :: crest) :: xs) = c :: t := by
          match xs with
          | [] => exact ⟨crest, intercalate_single _⟩
          | y :: ys =>
            refine ⟨crest ++ '/' :: List.intercalate ['/'] (y :: ys), ?_⟩
            rw [intercalate_cons_cons]
            rfl
        rw [ht]
        simp [isAbsL, hc]

lemma splitSegsL_renderPath (isAbs : Bool) (st : List (List Char))
    (hok : stackOK isAbs st) (hne : st ≠ []) :
    splitSegsL (renderPath isAbs st) = if isAbs then [] :: st else st := by
  obtain ⟨hent, _, _⟩ := hok
  have hsep : ∀ s ∈ st, '/' ∉ s := fun s hs => (hent s hs).2.2
  cases isAbs with
  | false =>
    simp only [renderPath, Bool.false_eq_true, if_false, List.nil_append]
    match st, hne with
    | x :: xs, _ => exact splitSegsL_intercalate _ (by simp) hsep
  | true =>
    simp only [renderPath, if_true]
    match st, hne with
    | x :: xs, _ =>
      have : (['/'] ++ List.intercalate ['/'] (x :: xs)) =
          '/' :: List.intercalate ['/'] (x :: xs) := rfl
      rw [this]
      simp only [splitSegsL, if_pos rfl]
      rw [splitSegsL_intercalate _ (by simp) hsep]
      simp



lemma pathStack_renderPath (isAbs : Bool) (st : List (List Char))
    (hok : stackOK isAbs st) : pathStack (renderPath isAbs st) = st := by
  obtain ⟨hent, ⟨k, cs, hform, hcs⟩, habs⟩ := hok
  unfold pathStack
  rw [isAbsL_renderPath isAbs st ⟨hent, ⟨k, cs, hform, hcs⟩, habs⟩]
  match st, hent, hform, habs with
  | [], _, _, _ =>
    cases isAbs with
    | true =>
      rw [show renderPath true [] = ['/'] from rfl]
      rw [show splitSegsL ['/'] = [[], []] from rfl]
      rfl
    | false =>
      rw [show renderPath false [] = ['.'] from rfl]
      rw [show splitSegsL ['.'] = [['.']] from rfl]
      rfl
  | x :: xs, hent, hform, habs =>
    rw [splitSegsL_renderPath isAbs (x :: xs)
      ⟨hent, ⟨k, cs, hform, hcs⟩, habs⟩ (by simp)]
    have hfilter : (x :: xs).filter (fun s => s ≠ [] && s ≠ ['.']) = x :: xs := by
      rw [List.filter_eq_self]
      intro a ha
      obtain ⟨h1, h2, _⟩ := hent a ha
      simp [h1, h2]
    cases isAbs with
    | true =>
      simp only [if_true]
      have hnodd : ∀ s ∈ x :: xs, s ≠ ['.', '.'] := habs rfl
      unfold normSegs
      rw [show List.foldl (normStep true) [] ([] :: x :: xs) =
          List.foldl (normStep true) [] (x :: xs) from by
        simp [normStep]]
      rw [foldl_normStep_clean true (x :: xs) [] hnodd]
      rw [List.nil_append, hfilter]
    | false =>
      simp only [Bool.false_eq_true, if_false]
      unfold normSegs
      rw [hform, List.foldl_append]
      rw [show List.foldl (normStep false) [] (List.replicate k ['.', '.']) =
          List.replicate k ['.', '.'] from by
        have h0 := foldl_normStep_dotdot k 0
        simpa using h0]
      rw [foldl_normStep_clean false cs _ hcs]
      have hfiltercs : cs.filter (fun s => s ≠ [] && s ≠ ['.']) = cs := by
        rw [List.filter_eq_self]
        intro a ha
        obtain ⟨h1, h2, _⟩ := hent a (by rw [hform]; exact List.mem_append_right _ ha)
        simp [h1, h2]
      rw [hfiltercs]



lemma splitSegsL_head (l : List Char) :
    (splitSegsL l).head? = some (l.takeWhile (fun c => c ≠ '/')) := by
  induction l with
  | nil => rfl
  | cons c cs ih =>
    by_cases hc : c = '/'
    · subst hc
      simp [splitSegsL, List.takeWhile]
    · simp only [splitSegsL, if_neg hc]
      match hsplit : splitSegsL cs with
      | [] => exact absurd hsplit (splitSegsL_ne_nil cs)
      | x :: xs =>
        rw [hsplit] at ih
        simp only [List.head?_cons, Option.some.injEq] at ih
        simp only [List.head?_cons, Option.some.injEq, List.takeWhile]
        simp [hc, ih]

lemma splitSegsL_dotdot_start (s : List Char)
    (h : (splitSegsL s).head? = some ['.', '.']) :
    s = ['.', '.'] ∨ (∃ r, s = '.' :: '.' :: '/' :: r) := by
  rw [splitSegsL_head] at h
  simp only [Option.some.injEq] at h
  match s, h with
  | [], h => simp at h
  | c :: rest, h =>
    simp only [List.takeWhile_cons] at h
    by_cases hc : c = '/'
    · subst hc
      simp at h
    · have h' : c :: rest.takeWhile (fun c => c ≠ '/') = ['.', '.'] := by
        simpa [hc] using h
      injection h' with h1 h2
      subst h1
      match rest, h2 with
      | [], h2 => simp at h2
      | c2 :: rest2, h2 =>
        simp only [List.takeWhile_cons] at h2
        by_cases hc2 : c2 = '/'
        · subst hc2
          simp at h2
        · have h2' : c2 :: rest2.takeWhile (fun c => c ≠ '/') = ['.'] := by
            simpa [hc2] using h2
          injection h2' with h3 h4
          subst h3
          match rest2, h4 with
          | [], _ => exact Or.inl rfl
          | c3 :: rest3, h4 =>
            simp only [List.takeWhile_cons] at h4
            by_cases hc3 : c3 = '/'
            · exact Or.inr ⟨rest3, by rw [hc3]⟩
            · rw [if_pos (by simpa using hc3 : (decide (c3 ≠ '/')) = true)] at h4
              simp at h4



lemma strip_no_dotdot :
    ∀ (s : List Char),
      (∃ k cs, splitSegsL s = List.replicate k ['.', '.'] ++ cs ∧
        ∀ seg ∈ cs, seg ≠ ['.', '.']) →
      ∀ seg ∈ splitSegsL (stripLeadingDotDot s), seg ≠ ['.', '.'] := by
  intro s
  induction s using stripLeadingDotDot.induct with
  | case1 rest ih =>
    intro ⟨k, cs, hform, hclean⟩
    rw [show stripLeadingDotDot ('.' :: '.' :: '/' :: rest) =
        stripLeadingDotDot rest from rfl]
    have hsplit : splitSegsL ('.' :: '.' :: '/' :: rest) =
        ['.', '.'] :: splitSegsL rest := by
      simp [splitSegsL]
    rw [hsplit] at hform
    match k, hform with
    | 0, hform =>
      exfalso
      rw [List.replicate_zero, List.nil_append] at hform
      exact hclean ['.', '.'] (hform ▸ List.mem_cons_self _ _) rfl
    | m + 1, hform =>
      rw [List.replicate_succ, List.cons_append] at hform
      injection hform with _ h2
      exact ih ⟨m, cs, h2, hclean⟩
  | case2 rest ih =>
    intro ⟨k, cs, hform, hclean⟩
    rw [show stripLeadingDotDot ('.' :: '.' :: '\\' :: rest) =
        stripLeadingDotDot rest from rfl]
    match hsplit : splitSegsL rest with
    | [] => exact absurd hsplit (splitSegsL_ne_nil rest)
    | s1 :: ss =>
      have hsplitBig : splitSegsL ('.' :: '.' :: '\\' :: rest) =
          ('.' :: '.' :: '\\' :: s1) :: ss := by
        simp only [splitSegsL, if_neg (by decide : ¬('.' : Char) = '/'),
          if_neg (by decide : ¬('\\' : Char) = '/'), hsplit]
      rw [hsplitBig] at hform
      have hssclean : ∀ seg ∈ ss, seg ≠ ['.', '.'] := by
        match k, hform with
        | 0, hform =>
          rw [List.replicate_zero, List.nil_append] at hform
          intro seg hs
          exact hclean seg (hform ▸ List.mem_cons_of_mem _ hs)
        | m + 1, hform =>
          rw [List.replicate_succ, List.cons_append] at hform
          injection hform with h1 _
          exact absurd h1.symm (by simp)
      by_cases hs1 : s1 = ['.', '.']
      · exact ih ⟨1, ss, by rw [hsplit, hs1]; rfl, hssclean⟩
      · refine ih ⟨0, s1 :: ss, by rw [hsplit]; rfl, ?_⟩
        intro seg hs
        rcases List.mem_cons.mp hs with h | h
        · exact h ▸ hs1
        · exact hssclean seg h
  | case3 =>
    intro _
    rw [show stripLeadingDotDot ['.', '.'] = [] from rfl]
    intro seg hs
    simp only [splitSegsL] at hs
    simp only [List.mem_singleton] at hs
    subst hs
    simp
  | case4 l h1 h2 h3 =>
    intro ⟨k, cs, hform, hclean⟩
    rw [stripLeadingDotDot.eq_4 l h1 h2 h3]
    intro seg hs
    match k, hform with
    | 0, hform =>
      rw [List.replicate_zero, List.nil_append] at hform
      exact hclean seg (hform ▸ hs)
    | m + 1, hform =>
      exfalso
      have hhead : (splitSegsL l).head? = some ['.', '.'] := by
        rw [hform]
        simp [List.replicate_succ]
      rcases splitSegsL_dotdot_start l hhead with h | ⟨r, h⟩
      · exact h3 h
      · exact h1 r h



lemma pathNormalizeL_dd (l : List Char) :
    ∃ k cs, splitSegsL (pathNormalizeL l) = List.replicate k ['.', '.'] ++ cs ∧
      ∀ seg ∈ cs, seg ≠ ['.', '.'] := by
  have hok := pathStack_stackOK l
  show ∃ k cs, splitSegsL (renderPath (isAbsL l) (pathStack l)) =
    List.replicate k ['.', '.'] ++ cs ∧ ∀ seg ∈ cs, seg ≠ ['.', '.']
  match hst : pathStack l with
  | [] =>
    cases habs : isAbsL l with
    | true =>
      refine ⟨0, [[], []], ?_, by simp⟩
      rw [show renderPath true [] = ['/'] from rfl]
      rfl
    | false =>
      refine ⟨0, [['.']], ?_, by simp⟩
      rw [show renderPath false [] = ['.'] from rfl]
      rfl
  | x :: xs =>
    rw [splitSegsL_renderPath _ _ (hst ▸ hok) (by simp)]
    obtain ⟨hent, ⟨k, cs, hform, hcs⟩, habs⟩ := hst ▸ hok
    cases hab : isAbsL l with
    | true =>
      refine ⟨0, [] :: x :: xs, by simp, ?_⟩
      intro seg hs
      rcases List.mem_cons.mp hs with h | h
      · subst h; simp
      · exact habs hab seg h
    | false =>
      refine ⟨k, cs, by simp [hform], hcs⟩

lemma isAbsL_append (a r : List Char) (ha : a ≠ []) :
    isAbsL (a ++ r) = isAbsL a := by
  match a, ha with
  | c :: t, _ => rfl

lemma pathStack_normalize (l : List Char) :
    pathStack (pathNormalizeL l) = pathStack l :=
  pathStack_renderPath _ _ (pathStack_stackOK l)

/-- C8: for every base directory and relative component, safePathJoin
strips the leading dot-dot sequences from the normalized relative component
— no traversal segment survives in it — and the joined path's normalized
segment stack is the base directory's stack extended by traversal-free
segments, so the result never escapes the base directory. -/
theorem safe_path_join_no_escape (baseDir relativePath : String) :
    (∀ seg ∈ splitSegsL (stripLeadingDotDot (pathNormalizeL relativePath.data)),
        seg ≠ ['.', '.']) ∧
    ∃ tail, pathStack (safePathJoin baseDir relativePath).data =
        pathStack baseDir.data ++ tail ∧ ∀ seg ∈ tail, seg ≠ ['.', '.'] := by
  have hcomp := strip_no_dotdot _ (pathNormalizeL_dd relativePath.data)
  refine ⟨hcomp, ?_⟩
  have hdata : (safePathJoin baseDir relativePath).data =
      pathJoinL baseDir.data (stripLeadingDotDot (pathNormalizeL relativePath.data)) :=
    rfl
  rw [hdata]
  by_cases hb : baseDir.data = []
  · by_cases hc : stripLeadingDotDot (pathNormalizeL relativePath.data) = []
    · refine ⟨[], ?_, by simp⟩
      rw [hb, hc]
      rfl
    · have hjoin : pathJoinL baseDir.data
          (stripLeadingDotDot (pathNormalizeL relativePath.data)) =
          pathNormalizeL (stripLeadingDotDot (pathNormalizeL relativePath.data)) := by
        simp [pathJoinL, hb, hc]
      rw [hjoin, pathStack_normalize, hb]
      refine ⟨pathStack (stripLeadingDotDot (pathNormalizeL relativePath.data)), ?_, ?_⟩
      · rw [show pathStack ([] : List Char) = [] from rfl, List.nil_append]
      · intro seg hs
        unfold pathStack normSegs at hs
        rw [foldl_normStep_clean _ _ [] hcomp, List.nil_append] at hs
        exact hcomp seg (List.mem_of_mem_filter hs)
  · by_cases hc : stripLeadingDotDot (pathNormalizeL relativePath.data) = []
    · have hjoin : pathJoinL baseDir.data
          (stripLeadingDotDot (pathNormalizeL relativePath.data)) =
          pathNormalizeL baseDir.data := by
        simp [pathJoinL, hb, hc]
      rw [hjoin, pathStack_normalize]
      exact ⟨[], by rw [List.append_nil], by simp⟩
    · have hjoin : pathJoinL baseDir.data
          (stripLeadingDotDot (pathNormalizeL relativePath.data)) =
          pathNormalizeL (baseDir.data ++ '/' ::
            stripLeadingDotDot (pathNormalizeL relativePath.data)) := by
        simp [pathJoinL, hb, hc]
      rw [hjoin, pathStack_normalize]
      unfold pathStack
      rw [isAbsL_append _ _ hb, splitSegsL_append]
      unfold normSegs
      rw [List.foldl_append, foldl_normStep_clean _ _ _ hcomp]
      refine ⟨_, rfl, ?_⟩
      intro seg hs
      exact hcomp seg (List.mem_of_mem_filter hs)



/-- Witness for C8 at a concrete traversal attempt. -/
theorem safe_path_join_no_escape_witness :
    safePathJoin "dest" "../../etc/passwd" = "dest/etc/passwd" ∧
    ∃ tail, pathStack (safePathJoin "dest" "../../etc/passwd").data =
        pathStack "dest".data ++ tail ∧ ∀ seg ∈ tail, seg ≠ ['.', '.'] :=
  ⟨rfl, (safe_path_join_no_escape "dest" "../../etc/passwd").2⟩

end NotionExporter
